import Mathlib

/-!
# Verification of the note-graph core of the Obsidian-style note application

This file gives a shallow embedding, in Lean 4, of the core algorithms of the
repository (wikilink parsing and rewriting, filename canonicalization, the
bidirectional link index, the graph build worker, the graph request
orchestrator, and the rename-rewrite worker), together with theorems checking
the specified properties against that embedding.

Modelling conventions:

* Strings are modelled as `List Char` (`Str`); Python strings are sequences of
  Unicode code points, as are Lean `List Char` values.
* Python's `uuid.uuid4().hex[:6]` (used by `safe_filename` for the
  `Untitled-…` fallback) is a fresh random token at every call.  Functions
  that may consume such tokens take an explicit token supply (`Nat → Str` or a
  single `Str`), and theorems quantify over the supply; a concrete supply
  models one possible execution.
* `unicodedata.normalize("NFKC", ·)`, `unicodedata.category`, `str.lower` and
  the Unicode whitespace classes are external library functions.  They are
  modelled by executable tables (`nfkc`, `isCatC`, `toLowerCh`,
  `pyWhitespace`) that agree with the CPython implementation on every
  character exercised by the theorems below (printable ASCII, the C0/C1
  controls, the common whitespace code points, and the combining acute
  accent); outside that fragment the model is the identity / best effort.
-/

namespace ObsidianProject

/-- Strings as lists of Unicode code points. -/
abbrev Str := List Char

/-- The code points of a Lean string literal. -/
def str (s : String) : Str := s.data

/-! ## Python string primitives (modelled) -/

/-- Model of Python's Unicode whitespace class (matched by `str.strip()` and
by `\s` in `re` patterns on `str`). -/
def pyWhitespace (c : Char) : Bool :=
  c = ' ' || c = '\t' || c = '\n' || c = '\x0b' || c = '\x0c' || c = '\r' ||
  c = '\x1c' || c = '\x1d' || c = '\x1e' || c = '\x1f' || c = '\x85' ||
  c = '\xa0' || c = ' ' || (0x2000 ≤ c.toNat && c.toNat ≤ 0x200a) ||
  c = ' ' || c = ' ' || c = ' ' || c = ' ' || c = '　'

/-- Model of `unicodedata.category(ch)[0] == "C"` (control, format, private
use, surrogate).  Exact on the control blocks and the common format
characters; unassigned code points (category `Cn`) are not modelled. -/
def isCatC (c : Char) : Bool :=
  c.toNat < 0x20 || (0x7f ≤ c.toNat && c.toNat ≤ 0x9f) ||
  c = '\xad' || (0x200b ≤ c.toNat && c.toNat ≤ 0x200f) ||
  (0x202a ≤ c.toNat && c.toNat ≤ 0x202e) ||
  (0x2060 ≤ c.toNat && c.toNat ≤ 0x2064) || c = '﻿' ||
  (0xe000 ≤ c.toNat && c.toNat ≤ 0xf8ff)

/-- The character class of `re.sub(r'[<>:"/\\|?*\u0000-\u001f]', "_", s)`. -/
def invalidFileChar (c : Char) : Bool :=
  c = '<' || c = '>' || c = ':' || c = '"' || c = '/' || c = '\\' ||
  c = '|' || c = '?' || c = '*' || c.toNat ≤ 0x1f

/-- Model of `str.lower()` per character (exact on ASCII; identity
elsewhere). -/
def toLowerCh (c : Char) : Char :=
  if 'A' ≤ c ∧ c ≤ 'Z' then Char.ofNat (c.toNat + 32) else c

/-- Model of `str.lower()`. -/
def lowerS (s : Str) : Str := s.map toLowerCh

/-- Model of `str.strip()` (strip Unicode whitespace at both ends). -/
def pyStrip (s : Str) : Str :=
  (s.dropWhile pyWhitespace).rdropWhile pyWhitespace

/-- Model of `str.rstrip(" .")`. -/
def rstripDotSpace (s : Str) : Str :=
  s.rdropWhile (fun c => c = ' ' || c = '.')

/-- Model of `re.sub(r"\s+", " ", s)`: collapse each maximal whitespace run
to a single space.  The boolean argument records whether the previous
character belonged to a run whose replacement space was already emitted. -/
def collapseWSAux : Bool → Str → Str
  | _, [] => []
  | inRun, c :: rest =>
    if pyWhitespace c then
      if inRun then collapseWSAux true rest
      else ' ' :: collapseWSAux true rest
    else c :: collapseWSAux false rest

/-- Model of `re.sub(r"\s+", " ", s)`. -/
def collapseWS (s : Str) : Str := collapseWSAux false s

/-! ## NFKC model

`unicodedata.normalize("NFKC", s)` is modelled as a compatibility-mapping
pass followed by a canonical-composition pass over an explicit table.  The
table covers the characters used by the theorems in this file (it is the
identity on ASCII, as real NFKC is); the composition pair below witnesses
that composition exists in the model. -/

/-- Compatibility/decomposition table (partial model; identity on ASCII). -/
def compatMap (c : Char) : Str :=
  if c = '\xa0' then [' ']
  else if c = ' ' then [' ']
  else if c = ' ' then [' ']
  else [c]

/-- Canonical composition table (partial model): base + combining mark. -/
def composePair (a b : Char) : Option Char :=
  if a = 'a' ∧ b = '́' then some 'á'
  else if a = 'e' ∧ b = '́' then some 'é'
  else if a = 'A' ∧ b = '́' then some 'Á'
  else if a = 'E' ∧ b = '́' then some 'É'
  else none

/-- Canonical composition pass: fold the pending character through the rest
of the string, composing with the table where possible. -/
def canonComposeAux (a : Char) : Str → Str
  | [] => [a]
  | b :: rest =>
    match composePair a b with
    | some c => canonComposeAux c rest
    | none => a :: canonComposeAux b rest

/-- Canonical composition pass. -/
def canonCompose : Str → Str
  | [] => []
  | a :: rest => canonComposeAux a rest

/-- Model of `unicodedata.normalize("NFKC", s)`. -/
def nfkc (s : Str) : Str := canonCompose (s.flatMap compatMap)

/-! ## `safe_filename` (src/app.py lines 401–453; identical pipelines in
src/app/core/filenames.py and src/obsidian_project/core/filenames.py) -/

/-- Windows reserved device names (lower case), from the source. -/
def reservedNames : List Str :=
  [str "con", str "prn", str "aux", str "nul",
   str "com1", str "com2", str "com3", str "com4", str "com5",
   str "com6", str "com7", str "com8", str "com9",
   str "lpt1", str "lpt2", str "lpt3", str "lpt4", str "lpt5",
   str "lpt6", str "lpt7", str "lpt8", str "lpt9"]

/-- Steps 1–6 of `safe_filename`: NFKC-normalize, drop category-C characters,
strip, replace path separators, replace forbidden filesystem characters,
collapse whitespace, strip trailing spaces and dots. -/
def sfPre (title : Str) : Str :=
  let s1 := nfkc title
  let s2 := s1.filter (fun c => !isCatC c)
  let s3 := pyStrip s2
  let s4 := s3.map (fun c => if c = '/' || c = '\\' then '-' else c)
  let s5 := s4.map (fun c => if invalidFileChar c then '_' else c)
  let s6 := collapseWS s5
  rstripDotSpace s6

/-- `s.split(".")[0].strip().lower()`: the reserved-name key of a name. -/
def reservedKey (s : Str) : Str :=
  lowerS (pyStrip (s.takeWhile (fun c => c ≠ '.')))

/-- Steps 8–9 of `safe_filename`: underscore-prefix Windows reserved device
names, then enforce the 120-character length limit. -/
def sfPost (s : Str) : Str :=
  let s' := if reservedKey s ∈ reservedNames then '_' :: s else s
  if 120 < s'.length then rstripDotSpace (s'.take 120) else s'

/-- The `Untitled-{uuid.uuid4().hex[:6]}` fallback, with the random hex
token `u` made explicit. -/
def untitled (u : Str) : Str := str "Untitled-" ++ u

/-- The deterministic part of `safe_filename`: `none` means the cleaned name
was empty and the random `Untitled-…` fallback is generated. -/
def sfCore (title : Str) : Option Str :=
  let p := sfPre title
  if p = [] then none else some (sfPost p)

/-- `safe_filename(title)` with the random fallback token `u` explicit.
Mirrors src/app.py lines 401–453 (the `title is None` branch is outside the
string domain and not modelled). -/
def safe_filename (u : Str) (title : Str) : Str :=
  match sfCore title with
  | some r => r
  | none => sfPost (untitled u)

/-! ## The wikilink scanner

`WIKILINK_RE = re.compile(r"\[\[([^\]]+)\]\]")`, used by `finditer` and
`sub` in src/wikilinks.py and src/app.py.  A match is `[[`, a nonempty run
of non-`]` characters, then `]]`; on a failed match the scan advances one
character (regex semantics).  The scanner is written with an explicit fuel
so that it is structurally recursive (the wrapper passes the text length,
which is always sufficient fuel). -/

/-- One token of scanned text: a literal character or the inner text of a
`[[…]]` wikilink span. -/
inductive Seg where
  | lit (c : Char)
  | span (inner : Str)
deriving DecidableEq, Repr

/-- Try to match `([^\]]+)\]\]` at the start of `rest`: the inner text up to
the first `]`, which must be nonempty and followed by a second `]`. -/
def takeInner (rest : Str) : Option (Str × Str) :=
  let i := rest.takeWhile (fun c => c ≠ ']')
  let after := rest.dropWhile (fun c => c ≠ ']')
  if i = [] then none
  else if after.take 2 = [']', ']'] then some (i, after.drop 2)
  else none

/-- Fueled scanner: tokenize text into literal characters and wikilink
spans, exactly as `WIKILINK_RE.finditer`/`sub` walk the text. -/
def wikiSegsF : Nat → Str → List Seg
  | 0, _ => []
  | _ + 1, [] => []
  | fuel + 1, c :: rest =>
    if c = '[' ∧ rest.head? = some '[' then
      match takeInner rest.tail with
      | some (i, r) => .span i :: wikiSegsF fuel r
      | none => .lit c :: wikiSegsF fuel rest
    else .lit c :: wikiSegsF fuel rest

/-- Tokenize a text (the text's length is always enough fuel). -/
def wikiSegs (s : Str) : List Seg := wikiSegsF s.length s

/-- The source text of one token. -/
def renderSeg : Seg → Str
  | .lit c => [c]
  | .span i => str "[[" ++ i ++ str "]]"

/-- The inner texts of all wikilink spans, in order (the `group(1)` values
of `WIKILINK_RE.finditer`). -/
def wikiInners (s : Str) : List Str :=
  (wikiSegs s).filterMap fun sg => match sg with | .span i => some i | .lit _ => none

/-! ## Wikilink helpers (src/wikilinks.py `_split_alias`, `_split_suffix`,
`_extract_base_target`; the same splitting is inlined in src/app.py) -/

/-- `_split_alias`: split `target|alias` at the first `|`, stripping both
parts; no alias if there is no `|`. -/
def splitAlias (raw : Str) : Str × Option Str :=
  if '|' ∈ raw then
    (pyStrip (raw.takeWhile (fun c => c ≠ '|')),
     some (pyStrip ((raw.dropWhile (fun c => c ≠ '|')).tail)))
  else (pyStrip raw, none)

/-- `_split_suffix`: split an Obsidian heading/block suffix at the first `#`
or (failing that) `^`; the base is stripped, the suffix keeps its separator
and is not stripped. -/
def splitSuffix (target : Str) : Str × Str :=
  if '#' ∈ target then
    (pyStrip (target.takeWhile (fun c => c ≠ '#')),
     '#' :: (target.dropWhile (fun c => c ≠ '#')).tail)
  else if '^' ∈ target then
    (pyStrip (target.takeWhile (fun c => c ≠ '^')),
     '^' :: (target.dropWhile (fun c => c ≠ '^')).tail)
  else (pyStrip target, [])

/-- `_extract_base_target`: base note name of a span's inner text. -/
def extractBase (raw : Str) : Str := (splitSuffix (splitAlias raw).1).1

/-- The base the src/app.py `extract_wikilink_targets` canonicalizes: only
the alias is split off, heading/block suffixes are kept. -/
def appTargetRaw (innerS : Str) : Str :=
  if '|' ∈ innerS then pyStrip (innerS.takeWhile (fun c => c ≠ '|')) else innerS

/-! ## `extract_wikilink_targets`

Both variants walk the matches, strip the inner text, skip empty ones,
canonicalize a base via `safe_filename` and collect nonempty results into a
set.  `baseFn` is the only difference: src/wikilinks.py strips alias and
heading/block suffix (`extractBase`), src/app.py strips only the alias
(`appTargetRaw`).  `us` supplies the random fallback tokens and `k` counts
the fallback sites already consumed. -/

def extractTargetsAux (baseFn : Str → Str) (us : Nat → Str) :
    Nat → List Str → Finset Str
  | _, [] => ∅
  | k, inner :: rest =>
    let innerS := pyStrip inner
    if innerS = [] then extractTargetsAux baseFn us k rest
    else
      let base := baseFn innerS
      match sfCore base with
      | some c =>
        if c = [] then extractTargetsAux baseFn us k rest
        else insert c (extractTargetsAux baseFn us k rest)
      | none => insert (sfPost (untitled (us k))) (extractTargetsAux baseFn us (k + 1) rest)

/-- `extract_wikilink_targets` of src/wikilinks.py lines 14–43. -/
def extract_wikilink_targets (us : Nat → Str) (text : Str) : Finset Str :=
  extractTargetsAux extractBase us 0 (wikiInners text)

/-- `extract_wikilink_targets` of src/app.py lines 59–76 (no suffix
stripping). -/
def appExtractTargets (us : Nat → Str) (text : Str) : Finset Str :=
  extractTargetsAux appTargetRaw us 0 (wikiInners text)

/-! ## `rewrite_wikilinks_targets` (src/wikilinks.py lines 46–93; the same
algorithm is inlined as src/app.py lines 78–134) -/

/-- The replacer applied to one span's inner text, given the fallback token
`u` for this site and the canonicalized old/new stems: returns the full
replacement text for the span and whether this span matched. -/
def replSpan (u : Str) (oldC newC : Str) (inner : Str) : Str × Bool :=
  let innerS := pyStrip inner
  if innerS = [] then (str "[[" ++ inner ++ str "]]", false)
  else
    let ta := splitAlias innerS
    let bs := splitSuffix ta.1
    let hit := safe_filename u bs.1 = oldC
    let target' := if hit then newC ++ bs.2 else ta.1
    match ta.2 with
    | some a => (str "[[" ++ target' ++ '|' :: a ++ str "]]", hit)
    | none => (str "[[" ++ target' ++ str "]]", hit)

/-- Does the replacer consume a random token on this span (its base hits
the `Untitled-…` fallback)?  Empty spans are skipped before
canonicalization and consume nothing. -/
def spanConsumes (inner : Str) : Bool :=
  let innerS := pyStrip inner
  if innerS = [] then false
  else sfCore (splitSuffix (splitAlias innerS).1).1 = none

/-- Apply the replacer across the token list, rendering literals unchanged
and accumulating the `changed` flag. -/
def rewriteAux (us : Nat → Str) (oldC newC : Str) : Nat → List Seg → Str × Bool
  | _, [] => ([], false)
  | k, .lit c :: rest =>
    let t := rewriteAux us oldC newC k rest
    (c :: t.1, t.2)
  | k, .span i :: rest =>
    let o := replSpan (us k) oldC newC i
    let t := rewriteAux us oldC newC (if spanConsumes i then k + 1 else k) rest
    (o.1 ++ t.1, o.2 || t.2)

/-- `rewrite_wikilinks_targets(markdown_text, old_stem, new_stem)`.  Token
site 0 canonicalizes `old_stem`, site 1 `new_stem`, sites 2… the span
bases in scan order. -/
def rewrite_wikilinks_targets (us : Nat → Str) (text old_stem new_stem : Str) :
    Str × Bool :=
  if text = [] then (text, false)
  else
    let oldC := safe_filename (us 0) old_stem
    let newC := safe_filename (us 1) new_stem
    if oldC = [] || newC = [] || oldC = newC then (text, false)
    else rewriteAux (fun j => us (2 + j)) oldC newC 0 (wikiSegs text)

/-! ## The link index (src/links.py `LinkIndex`; src/app.py `LinkIndex`)

`outgoing`/`incoming` are Python dicts from note id to set of note ids.  A
missing key reads as the empty set, and the source never stores an empty
set (empty sets are popped), so dict equality coincides with pointwise
equality of these functions; the model therefore represents each dict as a
total function into `Finset Str`, with `pop`/absent keys collapsing to
`∅`. -/

structure LinkIndex where
  outgoing : Str → Finset Str
  incoming : Str → Finset Str

/-- The freshly created, empty index. -/
def LinkIndex.empty : LinkIndex := ⟨fun _ => ∅, fun _ => ∅⟩

/-- The mutation core shared by both `update_note` implementations once the
new target set is known: detach `src` from the incoming sets of removed
targets, attach it to those of added targets, replace `outgoing[src]`. -/
def applyTargets (idx : LinkIndex) (srcId : Str) (newT : Finset Str) : LinkIndex :=
  let oldT := idx.outgoing srcId
  { outgoing := fun s => if s = srcId then newT else idx.outgoing s
    incoming := fun d =>
      if d ∈ oldT ∧ d ∉ newT then (idx.incoming d).erase srcId
      else if d ∈ newT ∧ d ∉ oldT then insert srcId (idx.incoming d)
      else idx.incoming d }

/-- `LinkIndex.update_note` of src/links.py lines 53–99: resolve extracted
titles through `resolve_title_to_id`, drop unresolved and self targets,
compare with the current outgoing set, mutate only on change. -/
def update_note (resolve : Str → Option Str) (us : Nat → Str)
    (idx : LinkIndex) (srcId text : Str) : Bool × LinkIndex :=
  if srcId = [] then (false, idx)
  else
    let newT := (extract_wikilink_targets us text).biUnion fun t =>
      match resolve t with
      | some d => if d ≠ [] ∧ d ≠ srcId then {d} else ∅
      | none => ∅
    let oldT := idx.outgoing srcId
    if newT = oldT then (false, idx)
    else (true, applyTargets idx srcId newT)

/-- `LinkIndex.update_note` of src/app.py lines 162–195: canonicalize the
source id (token `usrc`), extract targets with src/app.py's extractor,
discard the self link, compare and mutate. -/
def appUpdateNote (us : Nat → Str) (usrc : Str)
    (idx : LinkIndex) (srcId text : Str) : Bool × LinkIndex :=
  let srcC := safe_filename usrc srcId
  if srcC = [] then (false, idx)
  else
    let newT := (appExtractTargets us text).erase srcC
    let oldT := idx.outgoing srcC
    if oldT = newT then (false, idx)
    else (true, applyTargets idx srcC newT)

/-- The index is symmetric: `b ∈ outgoing[a] ⇔ a ∈ incoming[b]`. -/
def LinkIndex.Symm (idx : LinkIndex) : Prop :=
  ∀ a b, b ∈ idx.outgoing a ↔ a ∈ idx.incoming b

/-- The index has no self-loops: never `a ∈ outgoing[a]`. -/
def LinkIndex.LoopFree (idx : LinkIndex) : Prop :=
  ∀ a, a ∉ idx.outgoing a

/-- One `update_note` call of the src/links.py index, with its own resolver
and token supply (both may differ between calls). -/
structure UpdOp where
  resolve : Str → Option Str
  us : Nat → Str
  srcId : Str
  text : Str

/-- One `update_note` call of the src/app.py index. -/
structure AppUpdOp where
  us : Nat → Str
  usrc : Str
  srcId : Str
  text : Str

/-- Run a sequence of src/links.py `update_note` calls from a given index. -/
def applyOps (idx : LinkIndex) (ops : List UpdOp) : LinkIndex :=
  ops.foldl (fun i op => (update_note op.resolve op.us i op.srcId op.text).2) idx

/-- Run a sequence of src/app.py `update_note` calls from a given index. -/
def appApplyOps (idx : LinkIndex) (ops : List AppUpdOp) : LinkIndex :=
  ops.foldl (fun i op => (appUpdateNote op.us op.usrc i op.srcId op.text).2) idx

lemma applyTargets_symm_loopFree {idx : LinkIndex} {srcId : Str} {newT : Finset Str}
    (hs : idx.Symm) (hl : idx.LoopFree) (hself : srcId ∉ newT) :
    (applyTargets idx srcId newT).Symm ∧ (applyTargets idx srcId newT).LoopFree := by
  have hsrc : ∀ d, srcId ∈ (applyTargets idx srcId newT).incoming d ↔ d ∈ newT := by
    intro d
    simp only [applyTargets]
    by_cases h1 : d ∈ idx.outgoing srcId ∧ d ∉ newT
    · rw [if_pos h1]
      simp [Finset.mem_erase, h1.2]
    · rw [if_neg h1]
      by_cases h2 : d ∈ newT ∧ d ∉ idx.outgoing srcId
      · rw [if_pos h2]
        simp [h2.1]
      · rw [if_neg h2]
        rw [← hs srcId d]
        push_neg at h1 h2
        exact ⟨h1, h2⟩
  have hne : ∀ a, a ≠ srcId → ∀ d,
      (a ∈ (applyTargets idx srcId newT).incoming d ↔ a ∈ idx.incoming d) := by
    intro a ha d
    simp only [applyTargets]
    by_cases h1 : d ∈ idx.outgoing srcId ∧ d ∉ newT
    · rw [if_pos h1]
      simp [Finset.mem_erase, ha]
    · rw [if_neg h1]
      by_cases h2 : d ∈ newT ∧ d ∉ idx.outgoing srcId
      · rw [if_pos h2]
        simp [Finset.mem_insert, ha]
      · rw [if_neg h2]
  constructor
  · intro a b
    by_cases ha : a = srcId
    · subst ha
      have hout : b ∈ (applyTargets idx a newT).outgoing a ↔ b ∈ newT := by
        simp [applyTargets]
      rw [hout, hsrc b]
    · have hout : b ∈ (applyTargets idx srcId newT).outgoing a ↔ b ∈ idx.outgoing a := by
        simp [applyTargets, ha]
      rw [hout, hne a ha b]
      exact hs a b
  · intro a
    by_cases ha : a = srcId
    · subst ha
      simpa [applyTargets] using hself
    · simpa [applyTargets, ha] using hl a

lemma update_note_symm_loopFree {idx : LinkIndex}
    (hs : idx.Symm) (hl : idx.LoopFree)
    (r : Str → Option Str) (us : Nat → Str) (srcId text : Str) :
    (update_note r us idx srcId text).2.Symm ∧ (update_note r us idx srcId text).2.LoopFree := by
  unfold update_note
  by_cases h0 : srcId = []
  · simpa [h0] using ⟨hs, hl⟩
  · simp only [if_neg h0]
    set newT := (extract_wikilink_targets us text).biUnion fun t =>
      match r t with
      | some d => if d ≠ [] ∧ d ≠ srcId then {d} else ∅
      | none => ∅ with hnewT
    by_cases heq : newT = idx.outgoing srcId
    · simpa [heq] using ⟨hs, hl⟩
    · simp only [if_neg heq]
      refine applyTargets_symm_loopFree hs hl ?_
      intro hmem
      rw [hnewT, Finset.mem_biUnion] at hmem
      obtain ⟨t, _, hmem⟩ := hmem
      revert hmem
      cases r t with
      | none => simp
      | some d =>
        by_cases hd : d ≠ [] ∧ d ≠ srcId
        · simp [hd]
          intro hds
          exact hd.2 hds.symm
        · simp [hd]

lemma appUpdateNote_symm_loopFree {idx : LinkIndex}
    (hs : idx.Symm) (hl : idx.LoopFree)
    (us : Nat → Str) (usrc : Str) (srcId text : Str) :
    (appUpdateNote us usrc idx srcId text).2.Symm ∧
      (appUpdateNote us usrc idx srcId text).2.LoopFree := by
  unfold appUpdateNote
  set srcC := safe_filename usrc srcId with hsrcC
  by_cases h0 : srcC = []
  · simpa [h0] using ⟨hs, hl⟩
  · simp only [if_neg h0]
    by_cases heq : idx.outgoing srcC = (appExtractTargets us text).erase srcC
    · simpa [heq] using ⟨hs, hl⟩
    · simp only [if_neg heq]
      exact applyTargets_symm_loopFree hs hl (Finset.not_mem_erase _ _)

lemma applyOps_symm_loopFree {idx : LinkIndex}
    (hs : idx.Symm) (hl : idx.LoopFree) (ops : List UpdOp) :
    (applyOps idx ops).Symm ∧ (applyOps idx ops).LoopFree := by
  induction ops generalizing idx with
  | nil => exact ⟨hs, hl⟩
  | cons op rest ih =>
    have h := update_note_symm_loopFree hs hl op.resolve op.us op.srcId op.text
    exact ih h.1 h.2

lemma appApplyOps_symm_loopFree {idx : LinkIndex}
    (hs : idx.Symm) (hl : idx.LoopFree) (ops : List AppUpdOp) :
    (appApplyOps idx ops).Symm ∧ (appApplyOps idx ops).LoopFree := by
  induction ops generalizing idx with
  | nil => exact ⟨hs, hl⟩
  | cons op rest ih =>
    have h := appUpdateNote_symm_loopFree hs hl op.us op.usrc op.srcId op.text
    exact ih h.1 h.2

lemma empty_symm : LinkIndex.empty.Symm := by
  intro a b
  simp [LinkIndex.empty]

lemma empty_loopFree : LinkIndex.empty.LoopFree := by
  intro a
  simp [LinkIndex.empty]

/-- **C1.**  Starting from an empty `LinkIndex`, after every finite sequence
of `update_note` calls (with arbitrary texts, resolvers and random-token
supplies) the index is symmetric — `b ∈ outgoing[a] ⇔ a ∈ incoming[b]` —
and loop-free — never `a ∈ outgoing[a]`; self-references are discarded
during the update.  This holds for both implementations: the src/links.py
`LinkIndex.update_note` and the src/app.py `LinkIndex.update_note`. -/
theorem C1_index_symmetric_loop_free (ops : List UpdOp) (aops : List AppUpdOp) :
    ((applyOps LinkIndex.empty ops).Symm ∧ (applyOps LinkIndex.empty ops).LoopFree) ∧
    ((appApplyOps LinkIndex.empty aops).Symm ∧ (appApplyOps LinkIndex.empty aops).LoopFree) :=
  ⟨applyOps_symm_loopFree empty_symm empty_loopFree ops,
   appApplyOps_symm_loopFree empty_symm empty_loopFree aops⟩

/-! ## Determinism of canonicalization and extraction

`safe_filename` consults its random token only when the cleaned name is
empty (`sfCore _ = none`).  Texts whose spans all canonicalize
deterministically give the same extraction for every token supply. -/

lemma safe_filename_of_sfCore {title t : Str} (h : sfCore title = some t) :
    ∀ u, safe_filename u title = t := by
  intro u
  unfold safe_filename
  rw [h]

/-- All spans of `text` canonicalize without consuming a random token
(under the given base-extraction function). -/
def detSpans (baseFn : Str → Str) (text : Str) : Bool :=
  (wikiInners text).all fun i =>
    pyStrip i = [] || (sfCore (baseFn (pyStrip i))).isSome

lemma extractTargetsAux_det (baseFn : Str → Str) (us us' : Nat → Str) :
    ∀ inners : List Str,
      (∀ i ∈ inners, pyStrip i = [] ∨ (sfCore (baseFn (pyStrip i))).isSome) →
      ∀ k k' : Nat,
        extractTargetsAux baseFn us k inners = extractTargetsAux baseFn us' k' inners := by
  intro inners
  induction inners with
  | nil => intro _ k k'; rfl
  | cons i rest ih =>
    intro h k k'
    have hrest : ∀ j ∈ rest, pyStrip j = [] ∨ (sfCore (baseFn (pyStrip j))).isSome :=
      fun j hj => h j (List.mem_cons_of_mem _ hj)
    simp only [extractTargetsAux]
    by_cases hi : pyStrip i = []
    · simp only [if_pos hi]
      exact ih hrest k k'
    · simp only [if_neg hi]
      rcases h i (List.mem_cons_self _ _) with h' | h'
      · exact absurd h' hi
      · cases hc : sfCore (baseFn (pyStrip i)) with
        | none => rw [hc] at h'; simp at h'
        | some c =>
          by_cases hce : c = []
          · simp only [if_pos hce]
            exact ih hrest k k'
          · simp only [if_neg hce]
            rw [ih hrest k k']

lemma appExtractTargets_det {text : Str} (h : detSpans appTargetRaw text = true)
    (us us' : Nat → Str) : appExtractTargets us text = appExtractTargets us' text := by
  unfold appExtractTargets
  refine extractTargetsAux_det _ _ _ _ ?_ _ _
  intro i hi
  rw [detSpans, List.all_eq_true] at h
  have := h i hi
  rcases Bool.or_eq_true_iff.mp this with h' | h'
  · exact Or.inl (by simpa using h')
  · exact Or.inr h'

/-- **C9.**  `extractTargets` strips alias, heading and block suffixes
before canonicalization: on `"[[Note#Heading]] and [[Note^block]]"` it
returns exactly `{"Note"}`, for every random-token supply (none is
consumed). -/
theorem C9_extract_strips_suffixes (us : Nat → Str) :
    extract_wikilink_targets us (str "[[Note#Heading]] and [[Note^block]]") =
      {str "Note"} := rfl

/-- **C7, counterexample.**  The claim "whenever `oldId = newId` or either
is empty, `rewriteTargets(text, oldId, newId)` returns the input text
completely unchanged and `changed = false`" fails at
`text = "[[ A ]]"`, `oldId = newId = ""` (both claim conditions hold): the
two empty stems canonicalize to two distinct random `Untitled-…` tokens
(here `aaaaaa`/`bbbbbb`), the guard does not fire, and the rewrite
normalizes the span spelling to `"[[A]]"` — the text is changed. -/
theorem C7_counterexample :
    (rewrite_wikilinks_targets
        (fun n => if n = 0 then str "aaaaaa" else str "bbbbbb")
        (str "[[ A ]]") [] []).1 = str "[[A]]" ∧
      str "[[A]]" ≠ str "[[ A ]]" := by
  constructor
  · rfl
  · decide

/-- **C7, amended.**  `rewriteTargets(text, oldId, newId)` returns the
input text unchanged with `changed = false` whenever `oldId` and `newId`
canonicalize (deterministically) to the same string — in particular
whenever `oldId = newId` and `oldId` does not hit the random `Untitled-…`
fallback.  The spec's empty-string condition does not fire on its own:
canonicalizing an empty/whitespace-only stem yields a fresh nonempty random
token, so the guard compares two distinct tokens and the rewrite proceeds
(normalizing span spelling), as the counterexample shows. -/
theorem C7_rewrite_noop_amended (us : Nat → Str) (text old_stem new_stem t : Str)
    (h1 : sfCore old_stem = some t) (h2 : sfCore new_stem = some t) :
    rewrite_wikilinks_targets us text old_stem new_stem = (text, false) := by
  unfold rewrite_wikilinks_targets
  rw [safe_filename_of_sfCore h1, safe_filename_of_sfCore h2]
  by_cases ht : text = [] <;> simp [ht]

/-- Witness for `C7_rewrite_noop_amended` at `oldId = newId = "B"`,
`text = "x [[A]]"`. -/
theorem C7_witness :
    rewrite_wikilinks_targets (fun _ => str "q") (str "x [[A]]")
      (str "B") (str "B") = (str "x [[A]]", false) :=
  C7_rewrite_noop_amended _ _ _ _ (str "B") (by decide) (by decide)

/-- **C5, counterexample.**  The claim "`updateNote(id, text)` twice with
identical text makes the second call return `changed = false` and leave the
index unchanged" fails when a link target canonicalizes through the random
`Untitled-…` fallback: with `id = "A"` and `text = "[[...]]"` (a target of
dots cleans to the empty string), the first call stores
`{"Untitled-aaaaaa"}` and the second call extracts the fresh
`{"Untitled-bbbbbb"}`, so the second call returns `changed = true` and
mutates the index again. -/
theorem C5_counterexample :
    (appUpdateNote (fun _ => str "bbbbbb") (str "s2")
        ((appUpdateNote (fun _ => str "aaaaaa") (str "s1")
            LinkIndex.empty (str "A") (str "[[...]]")).2)
        (str "A") (str "[[...]]")).1 = true := rfl

/-- **C5, amended.**  `update_note` is idempotent per note for all
identifiers and texts that canonicalize deterministically: if the
identifier does not hit the random `Untitled-…` fallback
(`(sfCore id).isSome`) and no link target in the text does
(`detSpans appTargetRaw text`), then calling `updateNote(id, text)` twice
with identical text makes the second call return `changed = false` and
return the index exactly as it was after the first call, whatever the
starting index and random-token supplies. -/
theorem C5_update_idempotent_amended (us₁ us₂ : Nat → Str) (usrc₁ usrc₂ : Str)
    (idx : LinkIndex) (noteId text : Str)
    (hid : (sfCore noteId).isSome)
    (htext : detSpans appTargetRaw text = true) :
    appUpdateNote us₂ usrc₂ (appUpdateNote us₁ usrc₁ idx noteId text).2 noteId text =
      (false, (appUpdateNote us₁ usrc₁ idx noteId text).2) := by
  obtain ⟨t, ht⟩ := Option.isSome_iff_exists.mp hid
  have hc1 : safe_filename usrc₁ noteId = t := safe_filename_of_sfCore ht _
  have hc2 : safe_filename usrc₂ noteId = t := safe_filename_of_sfCore ht _
  have hex : appExtractTargets us₂ text = appExtractTargets us₁ text :=
    appExtractTargets_det htext _ _
  unfold appUpdateNote
  rw [hc1, hc2, hex]
  by_cases h0 : t = []
  · simp [h0]
  · simp only [if_neg h0]
    by_cases he : idx.outgoing t = (appExtractTargets us₁ text).erase t
    · simp [he]
    · simp only [if_neg he]
      have hout : (applyTargets idx t ((appExtractTargets us₁ text).erase t)).outgoing t =
          (appExtractTargets us₁ text).erase t := by
        simp [applyTargets]
      simp [hout]

/-- Witness for `C5_update_idempotent_amended`: `id = "A"`,
`text = "see [[B]]"`, starting from the empty index. -/
theorem C5_witness :
    appUpdateNote (fun _ => str "v") (str "w")
        ((appUpdateNote (fun _ => str "u") (str "z")
            LinkIndex.empty (str "A") (str "see [[B]]")).2)
        (str "A") (str "see [[B]]") =
      (false, (appUpdateNote (fun _ => str "u") (str "z")
          LinkIndex.empty (str "A") (str "see [[B]]")).2) :=
  C5_update_idempotent_amended _ _ _ _ _ _ _ (by decide) (by decide)

/-! ## Graph orchestrator (src/graph_controller.py)

`GraphController` keeps a monotone request counter `_req_id` (starting at
0); `_request_now` increments it and tags the dispatched worker with the
new value; `_on_worker_finished(req_id, payload)` invokes the result
callback only when `req_id == self._req_id`.  The model replays an
arbitrary interleaving of issue events (`_request_now` with a context) and
completion events (a worker's `finished` signal, carrying its tag and
payload) and records, per event, the payload delivered to the result
callback (`none` = no callback). -/

inductive CtlEvent (α : Type) where
  | issue
  | complete (reqId : Nat) (payload : α)

/-- Number of issued requests in an event list (the counter value after
replaying them). -/
def countIssues {α : Type} (evs : List (CtlEvent α)) : Nat :=
  evs.countP fun e => match e with | .issue => true | _ => false

/-- Replay events against the controller state `cnt` (the current value of
`_req_id`), recording the callback delivery of each event. -/
def ctlTrace {α : Type} : Nat → List (CtlEvent α) → List (Option α)
  | _, [] => []
  | cnt, .issue :: evs => none :: ctlTrace (cnt + 1) evs
  | cnt, .complete i p :: evs =>
    (if i = cnt then some p else none) :: ctlTrace cnt evs

lemma ctlTrace_delivers {α : Type} :
    ∀ (evs : List (CtlEvent α)) (cnt k i : Nat) (p : α),
      evs[k]? = some (.complete i p) →
      ((ctlTrace cnt evs)[k]? = some (some p) ↔ i = cnt + countIssues (evs.take k)) := by
  intro evs
  induction evs with
  | nil => intro cnt k i p h; simp at h
  | cons e evs ih =>
    intro cnt k i p h
    cases k with
    | zero =>
      simp only [List.getElem?_cons_zero, Option.some_inj] at h
      subst h
      simp only [ctlTrace, List.take_zero, countIssues, List.countP_nil, Nat.add_zero,
        List.getElem?_cons_zero, Option.some_inj]
      by_cases hi : i = cnt
      · simp [hi]
      · simp [hi]
    | succ k =>
      simp only [List.getElem?_cons_succ] at h
      cases e with
      | issue =>
        have := ih (cnt + 1) k i p h
        simpa [ctlTrace, countIssues, List.take_succ_cons, List.countP_cons,
          Nat.add_assoc, Nat.add_comm 1] using this
      | complete j q =>
        have := ih cnt k i p h
        simpa [ctlTrace, countIssues, List.take_succ_cons, List.countP_cons] using this

/-- **C2.**  A finished background build whose request id differs from the
current request counter invokes no result callback: for every event
sequence, the completion at position `k` delivers its payload exactly when
its id equals the number of requests issued before it (the latest issued
id); and in the concrete out-of-order scenario — ids 1,2,3 issued, then
completed in order 3,1,2 — only request 3's payload reaches the callback. -/
theorem C2_stale_results_discarded :
    (∀ (α : Type) (evs : List (CtlEvent α)) (k i : Nat) (p : α),
        evs[k]? = some (.complete i p) →
        ((ctlTrace 0 evs)[k]? = some (some p) ↔ i = countIssues (evs.take k))) ∧
    ctlTrace 0 [CtlEvent.issue, .issue, .issue,
        .complete 3 (30 : Nat), .complete 1 10, .complete 2 20] =
      [none, none, none, some 30, none, none] := by
  constructor
  · intro α evs k i p h
    simpa using ctlTrace_delivers evs 0 k i p h
  · rfl

/-- Witness for the hypothesis-bearing part of `C2_stale_results_discarded`:
in the 1,2,3-issued / 3,1,2-completed scenario, the completion of request 3
(event index 3) delivers its payload, and `3` is indeed the number of
requests issued before it. -/
theorem C2_witness :
    (ctlTrace 0 [CtlEvent.issue, .issue, .issue,
        .complete 3 (30 : Nat), .complete 1 10, .complete 2 20])[3]? =
        some (some 30) ↔
      3 = countIssues ([CtlEvent.issue, .issue, .issue,
        .complete 3 (30 : Nat), .complete 1 10, .complete 2 20].take 3) :=
  C2_stale_results_discarded.1 Nat _ 3 3 30 rfl

/-! ## Rename-rewrite worker (src/rename_worker.py `_RenameRewriteWorker.run`)

Per file, the worker checks the cancellation flag, then inside a per-file
`try`: reads the text, writes a backup if none exists, rewrites wikilinks,
and atomically writes back when changed.  Any exception in the `try` block
appends the file's path to the error list and continues.  A `FileSpec`
captures one file's externally-determined behaviour: its read result
(`none` = `read_text` raises), whether a backup already exists, whether the
backup/main writes succeed, and the token supply of its rewrite call.  The
cancellation flag is a shared `threading.Event` that other threads may set
at any time; `cancel i` is its value at the `i`-th between-files check. -/

structure FileSpec where
  path : Str
  read : Option Str
  backupExists : Bool
  backupOk : Bool
  writeOk : Bool
  us : Nat → Str

/-- The `result` dict emitted through the worker's `finished` signal. -/
structure RenameResult where
  old_title : Str
  new_title : Str
  total_files : Nat
  changed_files : Nat
  error_files : List Str
  canceled : Bool
deriving DecidableEq

/-- The worker's file loop: returns the changed-file count, the error list
and the canceled flag contributed by the remaining files, `k` being the
index of the next cancellation check. -/
def renameLoop (oldC newC : Str) (cancel : Nat → Bool) :
    Nat → List FileSpec → Nat × List Str × Bool
  | _, [] => (0, [], false)
  | k, f :: rest =>
    if cancel k then (0, [], true)
    else
      match f.read with
      | none =>
        let r := renameLoop oldC newC cancel (k + 1) rest
        (r.1, f.path :: r.2.1, r.2.2)
      | some txt =>
        if !f.backupExists && !f.backupOk then
          let r := renameLoop oldC newC cancel (k + 1) rest
          (r.1, f.path :: r.2.1, r.2.2)
        else if (rewrite_wikilinks_targets f.us txt oldC newC).2 then
          if f.writeOk then
            let r := renameLoop oldC newC cancel (k + 1) rest
            (r.1 + 1, r.2.1, r.2.2)
          else
            let r := renameLoop oldC newC cancel (k + 1) rest
            (r.1, f.path :: r.2.1, r.2.2)
        else
          let r := renameLoop oldC newC cancel (k + 1) rest
          (r.1, r.2.1, r.2.2)

/-- `_RenameRewriteWorker.run`: canonicalize the titles (as `__init__`
does, with tokens `uOld`/`uNew`), run the loop, assemble the result. -/
def renameRun (uOld uNew : Str) (old_title new_title : Str)
    (cancel : Nat → Bool) (files : List FileSpec) : RenameResult :=
  let oldC := safe_filename uOld old_title
  let newC := safe_filename uNew new_title
  let r := renameLoop oldC newC cancel 0 files
  { old_title := oldC
    new_title := newC
    total_files := files.length
    changed_files := r.1
    error_files := r.2.1
    canceled := r.2.2 }

lemma renameLoop_bounds (oldC newC : Str) (cancel : Nat → Bool) :
    ∀ (files : List FileSpec) (k : Nat),
      (renameLoop oldC newC cancel k files).1 +
          (renameLoop oldC newC cancel k files).2.1.length ≤ files.length ∧
      ((renameLoop oldC newC cancel k files).2.2 = true →
        ∃ i, i < files.length ∧ cancel (k + i) = true) := by
  intro files
  induction files with
  | nil => intro k; simp [renameLoop]
  | cons f rest ih =>
    intro k
    simp only [renameLoop]
    by_cases hk : cancel k = true
    · refine ⟨by simp [hk], ?_⟩
      intro _
      exact ⟨0, by simp, by simpa using hk⟩
    · simp only [hk, if_false, Bool.false_eq_true]
      have step : ∀ r : Nat × List Str × Bool,
          (r = renameLoop oldC newC cancel (k + 1) rest) →
          ∀ (addC : Nat) (addE : List Str), addC + addE.length ≤ 1 →
          (r.1 + addC) + (addE ++ r.2.1).length ≤ rest.length + 1 ∧
          (r.2.2 = true → ∃ i, i < rest.length + 1 ∧ cancel (k + i) = true) := by
        intro r hr addC addE hadd
        obtain ⟨h1, h2⟩ := ih (k + 1)
        rw [← hr] at h1 h2
        constructor
        · simp only [List.length_append]
          omega
        · intro hcc
          obtain ⟨i, hi, hci⟩ := h2 hcc
          exact ⟨i + 1, by omega, by
            have : k + (i + 1) = k + 1 + i := by omega
            rw [this]; exact hci⟩
      cases hread : f.read with
      | none =>
        have := step _ rfl 0 [f.path] (by simp)
        simpa using this
      | some txt =>
        by_cases hb : (!f.backupExists && !f.backupOk) = true
        · simp only [hb, if_true]
          have := step _ rfl 0 [f.path] (by simp)
          simpa using this
        · simp only [hb, Bool.false_eq_true, if_false]
          by_cases hrw : (rewrite_wikilinks_targets f.us txt oldC newC).2 = true
          · simp only [hrw, if_true]
            by_cases hw : f.writeOk = true
            · simp only [hw, if_true]
              have := step _ rfl 1 [] (by simp)
              simpa using this
            · simp only [hw, Bool.false_eq_true, if_false]
              have := step _ rfl 0 [f.path] (by simp)
              simpa using this
          · simp only [hrw, Bool.false_eq_true, if_false]
            have := step _ rfl 0 [] (by simp)
            simpa using this

/-- **C10.**  Every result the rename-rewrite worker emits is
arithmetically well-formed: `changedFiles + |errorFiles| ≤ totalFiles`,
`totalFiles` is the length of the input file list, and `canceled = true`
only if the cancellation flag was observed set at one of the at most
`totalFiles` between-file checks (so `canceled = false` whenever the flag
is never set). -/
theorem C10_rename_result_well_formed (uOld uNew old_title new_title : Str)
    (cancel : Nat → Bool) (files : List FileSpec) :
    (renameRun uOld uNew old_title new_title cancel files).total_files = files.length ∧
    (renameRun uOld uNew old_title new_title cancel files).changed_files +
        (renameRun uOld uNew old_title new_title cancel files).error_files.length ≤
      files.length ∧
    ((renameRun uOld uNew old_title new_title cancel files).canceled = true →
      ∃ i, i < files.length ∧ cancel i = true) := by
  obtain ⟨h1, h2⟩ := renameLoop_bounds (safe_filename uOld old_title)
    (safe_filename uNew new_title) cancel files 0
  exact ⟨rfl, h1, fun hc => by simpa using h2 hc⟩

/-- A sample file for the cancellation witness: readable, backed up,
writable. -/
def sampleFile : FileSpec := ⟨str "f", some [], true, true, true, fun _ => []⟩

/-- Witness for `C10_rename_result_well_formed`'s cancellation clause: one
file, flag always set — the run reports `canceled = true` and the theorem
yields a check index at which the flag was set. -/
theorem C10_witness :
    ∃ i, i < [sampleFile].length ∧ (fun _ => true : Nat → Bool) i = true :=
  (C10_rename_result_well_formed [] [] (str "Old") (str "New") (fun _ => true)
      [sampleFile]).2.2 rfl

/-- **C4.**  The rename-rewrite worker isolates per-file failures: over
three files where the second file's write raises (its rewrite changes the
text but the atomic write fails) and cancellation is never requested, the
loop still processes the remaining file; the result counts as changed only
files 1 and 3 (each when its rewrite actually changed it), reports
`errorFiles = [file2]` and `canceled = false`, with `totalFiles = 3`. -/
theorem C4_per_file_failure_isolated (uOld uNew old_title new_title : Str)
    (cancel : Nat → Bool) (f1 f2 f3 : FileSpec) (t1 t2 t3 : Str)
    (hc : ∀ i, cancel i = false)
    (h1r : f1.read = some t1) (h1b : (f1.backupExists || f1.backupOk) = true)
    (h1w : f1.writeOk = true)
    (h2r : f2.read = some t2) (h2b : (f2.backupExists || f2.backupOk) = true)
    (h2rw : (rewrite_wikilinks_targets f2.us t2 (safe_filename uOld old_title)
        (safe_filename uNew new_title)).2 = true)
    (h2w : f2.writeOk = false)
    (h3r : f3.read = some t3) (h3b : (f3.backupExists || f3.backupOk) = true)
    (h3w : f3.writeOk = true) :
    renameRun uOld uNew old_title new_title cancel [f1, f2, f3] =
      ⟨safe_filename uOld old_title, safe_filename uNew new_title, 3,
        (if (rewrite_wikilinks_targets f1.us t1 (safe_filename uOld old_title)
            (safe_filename uNew new_title)).2 = true then 1 else 0) +
        (if (rewrite_wikilinks_targets f3.us t3 (safe_filename uOld old_title)
            (safe_filename uNew new_title)).2 = true then 1 else 0),
        [f2.path], false⟩ := by
  have hb1 : (!f1.backupExists && !f1.backupOk) = false := by
    cases hx : f1.backupExists <;> simp_all
  have hb2 : (!f2.backupExists && !f2.backupOk) = false := by
    cases hx : f2.backupExists <;> simp_all
  have hb3 : (!f3.backupExists && !f3.backupOk) = false := by
    cases hx : f3.backupExists <;> simp_all
  simp only [renameRun, renameLoop, hc, h1r, h2r, h3r, hb1, hb2, hb3, h2rw, h1w, h2w, h3w,
    Bool.false_eq_true, if_false, if_true, List.length_cons, List.length_nil]
  by_cases hc1 : (rewrite_wikilinks_targets f1.us t1 (safe_filename uOld old_title)
      (safe_filename uNew new_title)).2 = true <;>
    by_cases hc3 : (rewrite_wikilinks_targets f3.us t3 (safe_filename uOld old_title)
        (safe_filename uNew new_title)).2 = true <;>
      simp [hc1, hc3]

/-- Sample files for the `C4` witness: file 1 changes and writes, file 2
changes but its write fails, file 3 is unchanged. -/
def c4File1 : FileSpec := ⟨str "f1", some (str "a [[Old]]"), true, true, true, fun _ => str "t"⟩

/-- Second sample file for the `C4` witness (write fails). -/
def c4File2 : FileSpec := ⟨str "f2", some (str "[[Old]] b"), true, true, false, fun _ => str "t"⟩

/-- Third sample file for the `C4` witness (no wikilink, unchanged). -/
def c4File3 : FileSpec := ⟨str "f3", some (str "c"), true, true, true, fun _ => str "t"⟩

/-- Witness for `C4_per_file_failure_isolated` at a concrete three-file
run: files 1 and 2 contain `[[Old]]`, file 3 does not, file 2's write
fails; the result is `changedFiles = 1`, `errorFiles = ["f2"]`,
`canceled = false`. -/
theorem C4_witness :
    renameRun (str "u") (str "v") (str "Old") (str "New") (fun _ => false)
        [c4File1, c4File2, c4File3] =
      ⟨safe_filename (str "u") (str "Old"), safe_filename (str "v") (str "New"), 3,
        (if (rewrite_wikilinks_targets c4File1.us (str "a [[Old]]")
            (safe_filename (str "u") (str "Old"))
            (safe_filename (str "v") (str "New"))).2 = true then 1 else 0) +
        (if (rewrite_wikilinks_targets c4File3.us (str "c")
            (safe_filename (str "u") (str "Old"))
            (safe_filename (str "v") (str "New"))).2 = true then 1 else 0),
        [c4File2.path], false⟩ :=
  C4_per_file_failure_isolated (str "u") (str "v") (str "Old") (str "New")
    (fun _ => false) c4File1 c4File2 c4File3
    (str "a [[Old]]") (str "[[Old]] b") (str "c")
    (fun _ => rfl) rfl rfl rfl rfl rfl (by decide) rfl rfl rfl rfl

/-! ## Graph build worker (src/graph_worker.py `_GraphBuildWorker.run`)

Python sets are modelled as duplicate-free lists built by `insertNew`
(iteration order of a Python set is unspecified; every place the worker
iterates a set it immediately sorts, which determines the result up to ties
between case-variant names — the model fixes insertion order there).
`sorted(·, key=…)` is a stable sort by a total preorder; a stable sort is
uniquely determined by the key, so the structural insertion sort `insSort`
below coincides with Python's. -/

/-- `set.add` preserving insertion order. -/
def insertNew (l : List Str) (x : Str) : List Str := if x ∈ l then l else l ++ [x]

/-- `dict.fromkeys` deduplication of the edge list: keep first
occurrences, preserving order. -/
def dedupFirst (l : List (Str × Str)) : List (Str × Str) :=
  l.foldl (fun acc e => if e ∈ acc then acc else acc ++ [e]) []

/-- Stable insertion of `x` into a sorted list (`x` goes before the first
element it does not strictly follow, preserving the original order of
equal keys). -/
def sinsert (le : Str → Str → Bool) (x : Str) : List Str → List Str
  | [] => [x]
  | y :: ys => if le x y then x :: y :: ys else y :: sinsert le x ys

/-- Stable sort by the boolean preorder `le` (Python's `sorted`). -/
def insSort (le : Str → Str → Bool) : List Str → List Str
  | [] => []
  | x :: xs => sinsert le x (insSort le xs)

/-- Lexicographic `≤` on code-point lists (Python string comparison). -/
def lexLe : Str → Str → Bool
  | [], _ => true
  | _ :: _, [] => false
  | a :: s, b :: t => if a = b then lexLe s t else decide (a < b)

/-- The `key=str.lower` comparison of `sorted(…, key=str.lower)`. -/
def lowerLe (a b : Str) : Bool := lexLe (lowerS a) (lowerS b)

/-- The comparison induced by the ranking key `(-deg[n], n.lower())`:
degree descending, then name ascending case-insensitively. -/
def rankLE (deg : Str → Nat) (a b : Str) : Bool :=
  decide (deg b < deg a) || (decide (deg a = deg b) && lowerLe a b)

/-- The first loop of `run`: union every snapshot source and target into
the node set (seeded with the existing ids) and collect the non-self
`(src, dst)` pairs in iteration order. -/
def collectPairs : (List Str × List (Str × Str)) → List (Str × List Str) →
    List Str × List (Str × Str)
  | st, [] => st
  | st, (src, dsts) :: rest =>
    let st2 := dsts.foldl
      (fun p dst =>
        (insertNew p.1 dst, if src = dst then p.2 else p.2 ++ [(src, dst)]))
      (insertNew st.1 src, st.2)
    collectPairs st2 rest

/-- `nodes_all` before any pruning: collected node set sorted
case-insensitively. -/
def allNodesOf (snapshot : List (Str × List Str)) (existing : List Str) : List Str :=
  insSort lowerLe (collectPairs (existing.foldl insertNew [], []) snapshot).1

/-- `edges_all` before any pruning: collected pairs, first occurrences
kept. -/
def allEdgesOf (snapshot : List (Str × List Str)) (existing : List Str) :
    List (Str × Str) :=
  dedupFirst (collectPairs (existing.foldl insertNew [], []) snapshot).2

/-- `deg` of the global-mode limiter: in-plus-out degree over the collected
edges, `0` for keys outside the node list (`deg.get(n, 0)`). -/
def degOf (nodes : List Str) (edges : List (Str × Str)) (n : Str) : Nat :=
  if n ∈ nodes then
    edges.countP (fun e => e.1 = n) + edges.countP (fun e => e.2 = n)
  else 0

/-- The kept node list of the global-mode size limiter: top `m` of the
ranking, with the center forced in over the lowest-ranked kept node
(`keep[-1] = center`) when it exists, is nonempty and was dropped. -/
def globalKeep (center : Option Str) (m : Nat) (nodesAll : List Str)
    (edgesAll : List (Str × Str)) : List Str :=
  let deg := degOf nodesAll edgesAll
  let ranked := insSort (rankLE deg) nodesAll
  let keep := ranked.take m
  match center with
  | some c =>
    if c ≠ [] ∧ c ∈ nodesAll ∧ c ∉ keep then keep.dropLast ++ [c] else keep
  | none => keep

/-- View mode of the build request. -/
inductive GraphMode where
  | globalMode
  | localMode
deriving DecidableEq

/-- Undirected adjacency view used by the local-mode breadth-first
expansion (`adj.get(v, set())` is empty off the node list). -/
def adjOf (nodes : List Str) (edges : List (Str × Str)) (v : Str) : List Str :=
  if v ∈ nodes then
    edges.foldl
      (fun acc e =>
        let acc := if e.1 = v then insertNew acc e.2 else acc
        if e.2 = v then insertNew acc e.1 else acc)
      []
  else []

/-- `depth` rounds of breadth-first expansion over the undirected
adjacency. -/
def bfsExpand (nbr : Str → List Str) : Nat → List Str → List Str → List Str
  | 0, visited, _ => visited
  | d + 1, visited, frontier =>
    let nxt := (frontier.flatMap nbr).foldl
      (fun acc v => if v ∈ visited ∨ v ∈ acc then acc else acc ++ [v]) []
    bfsExpand nbr d (visited ++ nxt) nxt

/-- The payload assembled by `_GraphBuildWorker.run` (the wall-clock
`time_ms` stat is not modelled; the float `layout_steps` suggestion
`int(min(max_steps, max(40, 20 + 10*sqrt(n))))` is modelled with `Nat.sqrt`). -/
structure GraphPayload where
  nodes : List Str
  edges : List (Str × Str)
  nodesAllCount : Nat
  edgesAllCount : Nat
  layoutSteps : Nat

/-- `_GraphBuildWorker.run` (src/graph_worker.py lines 37–118): collect
nodes and edges from the snapshot, apply the global-mode size limit, apply
the local-mode neighborhood selection, assemble the payload. -/
def graphRun (mode : GraphMode) (depth : Nat) (center : Option Str)
    (snapshot : List (Str × List Str)) (existing : List Str)
    (maxNodes maxSteps : Nat) : GraphPayload :=
  let depth := max 1 depth
  let maxNodes := max 50 maxNodes
  let maxSteps := max 30 maxSteps
  let st := collectPairs (existing.foldl insertNew [], []) snapshot
  let edgesAll0 := dedupFirst st.2
  let nodesAll0 := insSort lowerLe st.1
  let pruned :=
    if mode = GraphMode.globalMode ∧ maxNodes < nodesAll0.length then
      let keep := globalKeep center maxNodes nodesAll0 edgesAll0
      (insSort lowerLe (keep.foldl insertNew []),
       edgesAll0.filter (fun (e : Str × Str) => e.1 ∈ keep ∧ e.2 ∈ keep))
    else (nodesAll0, edgesAll0)
  let nodesAll := pruned.1
  let edgesAll := pruned.2
  let sel :=
    match center with
    | some c =>
      if mode = GraphMode.localMode ∧ c ≠ [] ∧ c ∈ nodesAll then
        let visited := bfsExpand (adjOf nodesAll edgesAll) depth [c] [c]
        let nodes := insSort lowerLe visited
        (nodes, edgesAll.filter (fun (e : Str × Str) => e.1 ∈ nodes ∧ e.2 ∈ nodes))
      else (nodesAll, edgesAll)
    | none => (nodesAll, edgesAll)
  { nodes := sel.1
    edges := sel.2
    nodesAllCount := nodesAll.length
    edgesAllCount := edgesAll.length
    layoutSteps := min maxSteps (max 40 (20 + 10 * Nat.sqrt sel.1.length)) }

lemma sinsert_perm (le : Str → Str → Bool) (x : Str) :
    ∀ l : List Str, (sinsert le x l).Perm (x :: l)
  | [] => List.Perm.refl _
  | y :: ys => by
    simp only [sinsert]
    by_cases h : le x y = true
    · rw [if_pos h]
    · rw [if_neg h]
      exact ((sinsert_perm le x ys).cons y).trans (List.Perm.swap x y ys)

lemma insSort_perm (le : Str → Str → Bool) : ∀ l : List Str, (insSort le l).Perm l
  | [] => List.Perm.refl _
  | x :: xs => (sinsert_perm le x (insSort le xs)).trans ((insSort_perm le xs).cons x)

lemma mem_insSort (le : Str → Str → Bool) (l : List Str) (x : Str) :
    x ∈ insSort le l ↔ x ∈ l :=
  (insSort_perm le l).mem_iff

lemma length_insSort (le : Str → Str → Bool) (l : List Str) :
    (insSort le l).length = l.length :=
  (insSort_perm le l).length_eq

lemma nodup_insSort (le : Str → Str → Bool) {l : List Str} (h : l.Nodup) :
    (insSort le l).Nodup :=
  ((insSort_perm le l).nodup_iff).mpr h

lemma sinsert_pairwise (le : Str → Str → Bool)
    (htot : ∀ a b, le a b = true ∨ le b a = true)
    (htr : ∀ a b c, le a b = true → le b c = true → le a c = true)
    (x : Str) :
    ∀ l : List Str, l.Pairwise (fun a b => le a b = true) →
      (sinsert le x l).Pairwise (fun a b => le a b = true)
  | [], _ => by simp [sinsert]
  | y :: ys, h => by
    simp only [sinsert]
    rcases List.pairwise_cons.mp h with ⟨hy, hys⟩
    by_cases hxy : le x y = true
    · rw [if_pos hxy]
      refine List.pairwise_cons.mpr ⟨?_, h⟩
      intro z hz
      rcases List.mem_cons.mp hz with rfl | hz
      · exact hxy
      · exact htr x y z hxy (hy z hz)
    · rw [if_neg hxy]
      refine List.pairwise_cons.mpr ⟨?_, sinsert_pairwise le htot htr x ys hys⟩
      intro z hz
      rcases List.mem_cons.mp ((sinsert_perm le x ys).mem_iff.mp hz) with hzx | hz
      · subst hzx
        rcases htot z y with h' | h'
        · exact absurd h' hxy
        · exact h'
      · exact hy z hz

lemma insSort_pairwise (le : Str → Str → Bool)
    (htot : ∀ a b, le a b = true ∨ le b a = true)
    (htr : ∀ a b c, le a b = true → le b c = true → le a c = true) :
    ∀ l : List Str, (insSort le l).Pairwise (fun a b => le a b = true)
  | [] => by simp [insSort]
  | x :: xs => sinsert_pairwise le htot htr x _ (insSort_pairwise le htot htr xs)

lemma lexLe_total : ∀ a b : Str, lexLe a b = true ∨ lexLe b a = true
  | [], _ => Or.inl rfl
  | _ :: _, [] => Or.inr rfl
  | x :: s, y :: t => by
    simp only [lexLe]
    by_cases hxy : x = y
    · subst hxy
      simpa using lexLe_total s t
    · have hyx : y ≠ x := fun h => hxy h.symm
      rw [if_neg hxy, if_neg hyx]
      rcases lt_trichotomy x y with h | h | h
      · exact Or.inl (by simpa using h)
      · exact absurd h hxy
      · exact Or.inr (by simpa using h)

lemma lexLe_trans : ∀ a b c : Str, lexLe a b = true → lexLe b c = true → lexLe a c = true
  | [], _, _, _, _ => rfl
  | x :: s, [], _, hab, _ => by simp [lexLe] at hab
  | x :: s, y :: t, [], _, hbc => by simp [lexLe] at hbc
  | x :: s, y :: t, z :: u, hab, hbc => by
    simp only [lexLe] at hab hbc ⊢
    by_cases hxy : x = y
    · subst hxy
      rw [if_pos rfl] at hab
      by_cases hyz : x = z
      · subst hyz
        rw [if_pos rfl] at hbc ⊢
        exact lexLe_trans s t u hab hbc
      · rw [if_neg hyz] at hbc ⊢
        exact hbc
    · rw [if_neg hxy] at hab
      have hxy' : x < y := by simpa using hab
      by_cases hyz : y = z
      · subst hyz
        rw [if_neg hxy]
        simpa using hxy'
      · rw [if_neg hyz] at hbc
        have hyz' : y < z := by simpa using hbc
        have hxz : x < z := lt_trans hxy' hyz'
        rw [if_neg (ne_of_lt hxz)]
        simpa using hxz

lemma lowerLe_total (a b : Str) : lowerLe a b = true ∨ lowerLe b a = true :=
  lexLe_total _ _

lemma lowerLe_trans (a b c : Str) :
    lowerLe a b = true → lowerLe b c = true → lowerLe a c = true :=
  lexLe_trans _ _ _

lemma rankLE_total (deg : Str → Nat) (a b : Str) :
    rankLE deg a b = true ∨ rankLE deg b a = true := by
  simp only [rankLE, Bool.or_eq_true, Bool.and_eq_true, decide_eq_true_eq]
  rcases lt_trichotomy (deg a) (deg b) with h | h | h
  · exact Or.inr (Or.inl h)
  · rcases lowerLe_total a b with h' | h'
    · exact Or.inl (Or.inr ⟨h, h'⟩)
    · exact Or.inr (Or.inr ⟨h.symm, h'⟩)
  · exact Or.inl (Or.inl h)

lemma rankLE_trans (deg : Str → Nat) (a b c : Str) :
    rankLE deg a b = true → rankLE deg b c = true → rankLE deg a c = true := by
  simp only [rankLE, Bool.or_eq_true, Bool.and_eq_true, decide_eq_true_eq]
  rintro (hab | ⟨hab, hab'⟩) (hbc | ⟨hbc, hbc'⟩)
  · exact Or.inl (lt_trans hbc hab)
  · exact Or.inl (hbc ▸ hab)
  · exact Or.inl (hab ▸ hbc)
  · exact Or.inr ⟨hab.trans hbc, lowerLe_trans a b c hab' hbc'⟩

lemma mem_insertNew {l : List Str} {x y : Str} :
    y ∈ insertNew l x ↔ y ∈ l ∨ y = x := by
  unfold insertNew
  by_cases h : x ∈ l
  · rw [if_pos h]
    constructor
    · exact Or.inl
    · rintro (hy | rfl)
      · exact hy
      · exact h
  · rw [if_neg h]
    simp

lemma nodup_insertNew {l : List Str} (h : l.Nodup) (x : Str) :
    (insertNew l x).Nodup := by
  unfold insertNew
  by_cases hx : x ∈ l
  · rwa [if_pos hx]
  · rw [if_neg hx]
    simpa [List.nodup_append] using ⟨h, fun hm => hx hm⟩

lemma nodup_foldl_insertNew :
    ∀ (xs : List Str) (acc : List Str), acc.Nodup → (xs.foldl insertNew acc).Nodup
  | [], _, h => h
  | x :: xs, acc, h => nodup_foldl_insertNew xs (insertNew acc x) (nodup_insertNew h x)

lemma foldl_insertNew_of_nodup :
    ∀ (l : List Str) (acc : List Str), (acc ++ l).Nodup → l.foldl insertNew acc = acc ++ l
  | [], acc, _ => by simp
  | x :: l, acc, h => by
    have hx : x ∉ acc := by
      intro hx
      have := List.disjoint_of_nodup_append h
      exact this hx (List.mem_cons_self _ _)
    have step : insertNew acc x = acc ++ [x] := by
      unfold insertNew
      rw [if_neg hx]
    rw [List.foldl_cons, step]
    have h' : ((acc ++ [x]) ++ l).Nodup := by
      simpa using h
    rw [foldl_insertNew_of_nodup l (acc ++ [x]) h']
    simp

lemma collectPairs_fst_nodup :
    ∀ (l : List (Str × List Str)) (st : List Str × List (Str × Str)),
      st.1.Nodup → (collectPairs st l).1.Nodup := by
  intro l
  induction l with
  | nil => intro st h; exact h
  | cons p rest ih =>
    intro st h
    obtain ⟨src, dsts⟩ := p
    simp only [collectPairs]
    apply ih
    have : ∀ (ds : List Str) (q : List Str × List (Str × Str)), q.1.Nodup →
        ((ds.foldl (fun p dst =>
          (insertNew p.1 dst, if src = dst then p.2 else p.2 ++ [(src, dst)])) q).1).Nodup := by
      intro ds
      induction ds with
      | nil => intro q hq; exact hq
      | cons d ds ihd =>
        intro q hq
        exact ihd _ (nodup_insertNew hq d)
    exact this dsts _ (nodup_insertNew h src)

/-- The ranking list of the global-mode limiter. -/
def rankedOf (snapshot : List (Str × List Str)) (existing : List Str) : List Str :=
  insSort (rankLE (degOf (allNodesOf snapshot existing) (allEdgesOf snapshot existing)))
    (allNodesOf snapshot existing)

lemma graphRun_global_spec (depth : Nat) (center : Option Str)
    (snapshot : List (Str × List Str)) (existing : List Str) (maxNodes maxSteps : Nat)
    (hbig : max 50 maxNodes < (allNodesOf snapshot existing).length) :
    (graphRun GraphMode.globalMode depth center snapshot existing maxNodes maxSteps).nodes =
      insSort lowerLe ((globalKeep center (max 50 maxNodes) (allNodesOf snapshot existing)
        (allEdgesOf snapshot existing)).foldl insertNew []) ∧
    (graphRun GraphMode.globalMode depth center snapshot existing maxNodes maxSteps).edges =
      (allEdgesOf snapshot existing).filter
        (fun (e : Str × Str) => e.1 ∈ globalKeep center (max 50 maxNodes)
            (allNodesOf snapshot existing) (allEdgesOf snapshot existing) ∧
          e.2 ∈ globalKeep center (max 50 maxNodes)
            (allNodesOf snapshot existing) (allEdgesOf snapshot existing)) := by
  have hbig' : max 50 maxNodes <
      (insSort lowerLe (collectPairs (existing.foldl insertNew [], []) snapshot).1).length := by
    simpa [allNodesOf] using hbig
  simp only [graphRun, allNodesOf, allEdgesOf]
  rw [if_pos ⟨trivial, hbig'⟩]
  cases center with
  | none => exact ⟨rfl, rfl⟩
  | some c =>
    dsimp only
    rw [if_neg]
    · exact ⟨rfl, rfl⟩
    · rintro ⟨h, -⟩
      exact absurd h (by decide)

lemma globalKeep_cases (center : Option Str) (m : Nat) (nodesAll : List Str)
    (edgesAll : List (Str × Str)) :
    globalKeep center m nodesAll edgesAll =
        (insSort (rankLE (degOf nodesAll edgesAll)) nodesAll).take m ∨
      ∃ c, center = some c ∧ c ≠ [] ∧ c ∈ nodesAll ∧
        c ∉ (insSort (rankLE (degOf nodesAll edgesAll)) nodesAll).take m ∧
        globalKeep center m nodesAll edgesAll =
          ((insSort (rankLE (degOf nodesAll edgesAll)) nodesAll).take m).dropLast ++ [c] := by
  unfold globalKeep
  cases center with
  | none => exact Or.inl rfl
  | some c =>
    dsimp only
    by_cases h : c ≠ [] ∧ c ∈ nodesAll ∧
        c ∉ (insSort (rankLE (degOf nodesAll edgesAll)) nodesAll).take m
    · exact Or.inr ⟨c, rfl, h.1, h.2.1, h.2.2, by rw [if_pos h]⟩
    · rw [if_neg h]
      exact Or.inl rfl

lemma globalKeep_nodup_len (center : Option Str) (m : Nat) (nodesAll : List Str)
    (edgesAll : List (Str × Str)) (hn : nodesAll.Nodup) (hm : 0 < m)
    (hbig : m < nodesAll.length) :
    (globalKeep center m nodesAll edgesAll).Nodup ∧
      (globalKeep center m nodesAll edgesAll).length = m := by
  set ranked := insSort (rankLE (degOf nodesAll edgesAll)) nodesAll with hranked
  have hrn : ranked.Nodup := nodup_insSort _ hn
  have hrl : ranked.length = nodesAll.length := length_insSort _ _
  have htn : (ranked.take m).Nodup := hrn.sublist (List.take_sublist _ _)
  have htl : (ranked.take m).length = m := by
    rw [List.length_take, hrl]
    omega
  rcases globalKeep_cases center m nodesAll edgesAll with h | ⟨c, -, -, -, hc, h⟩
  · rw [h]
    exact ⟨htn, htl⟩
  · rw [h]
    have hdl : ((ranked.take m).dropLast).Nodup := htn.sublist (List.dropLast_sublist _)
    have hcd : c ∉ (ranked.take m).dropLast := fun hmem =>
      hc ((List.dropLast_sublist _).mem hmem)
    constructor
    · simpa [List.nodup_append] using ⟨hdl, fun hmem => hcd hmem⟩
    · have : (ranked.take m).dropLast.length = m - 1 := by
        rw [List.length_dropLast, htl]
      simp only [List.length_append, this, List.length_cons, List.length_nil]
      omega

lemma center_mem_globalKeep {c : Str} (m : Nat) (nodesAll : List Str)
    (edgesAll : List (Str × Str)) (hne : c ≠ []) (hmem : c ∈ nodesAll) :
    c ∈ globalKeep (some c) m nodesAll edgesAll := by
  unfold globalKeep
  dsimp only
  by_cases h : c ≠ [] ∧ c ∈ nodesAll ∧
      c ∉ (insSort (rankLE (degOf nodesAll edgesAll)) nodesAll).take m
  · rw [if_pos h]
    simp
  · rw [if_neg h]
    push_neg at h
    exact h hne hmem

lemma globalKeep_eq_take_of_noEvict (center : Option Str) (m : Nat)
    (nodesAll : List Str) (edgesAll : List (Str × Str))
    (h : ∀ c, center = some c → c ≠ [] → c ∈ nodesAll →
      c ∈ (insSort (rankLE (degOf nodesAll edgesAll)) nodesAll).take m) :
    globalKeep center m nodesAll edgesAll =
      (insSort (rankLE (degOf nodesAll edgesAll)) nodesAll).take m := by
  unfold globalKeep
  cases center with
  | none => rfl
  | some c =>
    dsimp only
    rw [if_neg]
    rintro ⟨hne, hmem, hnotin⟩
    exact hnotin (h c rfl hne hmem)

lemma globalKeep_eq_evict {c : Str} (m : Nat) (nodesAll : List Str)
    (edgesAll : List (Str × Str)) (hne : c ≠ []) (hmem : c ∈ nodesAll)
    (hnotin : c ∉ (insSort (rankLE (degOf nodesAll edgesAll)) nodesAll).take m) :
    globalKeep (some c) m nodesAll edgesAll =
      ((insSort (rankLE (degOf nodesAll edgesAll)) nodesAll).take m).dropLast ++ [c] := by
  unfold globalKeep
  dsimp only
  rw [if_pos ⟨hne, hmem, hnotin⟩]

/-- **C8.**  Global mode with the size limit: whenever the union of
existing ids and snapshot ids exceeds the (clamped) node budget
`max 50 maxNodes`, the build returns exactly that many nodes; every
returned edge has both endpoints among the returned nodes; a nonempty
center that occurs among the nodes is always returned; when no center
forces an eviction the returned node set is exactly the top of the ranking
by degree descending then name ascending (case-insensitively) — every kept
node ranks no worse than every dropped node — and when the center was
dropped by the budget it replaces the lowest-ranked kept node. -/
theorem C8_global_mode_size_limit (depth : Nat) (center : Option Str)
    (snapshot : List (Str × List Str)) (existing : List Str) (maxNodes maxSteps : Nat)
    (hbig : max 50 maxNodes < (allNodesOf snapshot existing).length) :
    (graphRun GraphMode.globalMode depth center snapshot existing maxNodes maxSteps).nodes.length
        = max 50 maxNodes ∧
    (∀ e ∈ (graphRun GraphMode.globalMode depth center snapshot existing maxNodes maxSteps).edges,
      e.1 ∈ (graphRun GraphMode.globalMode depth center snapshot existing maxNodes maxSteps).nodes ∧
      e.2 ∈ (graphRun GraphMode.globalMode depth center snapshot existing maxNodes maxSteps).nodes) ∧
    (∀ c, center = some c → c ≠ [] → c ∈ allNodesOf snapshot existing →
      c ∈ (graphRun GraphMode.globalMode depth center snapshot existing maxNodes maxSteps).nodes) ∧
    ((∀ c, center = some c → c ≠ [] → c ∈ allNodesOf snapshot existing →
        c ∈ (rankedOf snapshot existing).take (max 50 maxNodes)) →
      (graphRun GraphMode.globalMode depth center snapshot existing maxNodes maxSteps).nodes.toFinset
          = ((rankedOf snapshot existing).take (max 50 maxNodes)).toFinset ∧
        ∀ n ∈ (graphRun GraphMode.globalMode depth center snapshot existing maxNodes maxSteps).nodes,
          ∀ p ∈ allNodesOf snapshot existing,
            p ∉ (graphRun GraphMode.globalMode depth center snapshot existing maxNodes maxSteps).nodes →
            rankLE (degOf (allNodesOf snapshot existing) (allEdgesOf snapshot existing)) n p = true) ∧
    (∀ c, center = some c → c ≠ [] → c ∈ allNodesOf snapshot existing →
      c ∉ (rankedOf snapshot existing).take (max 50 maxNodes) →
      (graphRun GraphMode.globalMode depth center snapshot existing maxNodes maxSteps).nodes.toFinset
        = insert c (((rankedOf snapshot existing).take (max 50 maxNodes)).dropLast.toFinset)) := by
  obtain ⟨hN, hE⟩ := graphRun_global_spec depth center snapshot existing maxNodes maxSteps hbig
  set M := max 50 maxNodes with hM
  set nodesAll := allNodesOf snapshot existing with hnodesAll
  set edgesAll := allEdgesOf snapshot existing with hedgesAll
  set keep := globalKeep center M nodesAll edgesAll with hkeep
  have hranked : rankedOf snapshot existing =
      insSort (rankLE (degOf nodesAll edgesAll)) nodesAll := rfl
  have hnAll : nodesAll.Nodup := by
    rw [hnodesAll]
    exact nodup_insSort _ (collectPairs_fst_nodup _ _
      (nodup_foldl_insertNew existing [] List.nodup_nil))
  have hM0 : 0 < M := lt_of_lt_of_le (by norm_num) (le_max_left 50 maxNodes)
  obtain ⟨hkN, hkL⟩ := globalKeep_nodup_len center M nodesAll edgesAll hnAll hM0 hbig
  have hPy : keep.foldl insertNew [] = keep :=
    foldl_insertNew_of_nodup keep [] (by simpa using hkN)
  have hnodes : (graphRun GraphMode.globalMode depth center snapshot existing maxNodes
      maxSteps).nodes = insSort lowerLe keep := by rw [hN, hPy]
  have hperm : (graphRun GraphMode.globalMode depth center snapshot existing maxNodes
      maxSteps).nodes.Perm keep := by rw [hnodes]; exact insSort_perm _ keep
  refine ⟨?_, ?_, ?_, ?_, ?_⟩
  · rw [hperm.length_eq, hkL]
  · intro e he
    rw [hE] at he
    have hf := (List.mem_filter.mp he).2
    simp only [decide_eq_true_eq] at hf
    exact ⟨hperm.mem_iff.mpr hf.1, hperm.mem_iff.mpr hf.2⟩
  · intro c hc hne hmem
    rw [hperm.mem_iff]
    rw [hkeep, hc]
    exact center_mem_globalKeep M nodesAll edgesAll hne hmem
  · intro hno
    have hkt : keep = (insSort (rankLE (degOf nodesAll edgesAll)) nodesAll).take M := by
      rw [hkeep]
      exact globalKeep_eq_take_of_noEvict center M nodesAll edgesAll
        (fun c hc hne hmem => by
          have := hno c hc hne hmem
          rwa [hranked] at this)
    constructor
    · rw [hranked, ← hkt]
      exact List.toFinset_eq_of_perm _ _ hperm
    · intro n hn p hp hpn
      have hsorted := insSort_pairwise (rankLE (degOf nodesAll edgesAll))
        (rankLE_total _) (rankLE_trans _) nodesAll
      set ranked := insSort (rankLE (degOf nodesAll edgesAll)) nodesAll with hr
      have hsplit : ranked = ranked.take M ++ ranked.drop M :=
        (List.take_append_drop M ranked).symm
      rw [hsplit] at hsorted
      have hrel := (List.pairwise_append.mp hsorted).2.2
      have hnK : n ∈ ranked.take M := by
        rw [← hkt]
        exact hperm.mem_iff.mp hn
      have hpR : p ∈ ranked := (insSort_perm _ _).mem_iff.mpr hp
      have hpD : p ∈ ranked.drop M := by
        rw [hsplit] at hpR
        rcases List.mem_append.mp hpR with h | h
        · exact absurd (hperm.mem_iff.mpr (hkt ▸ h)) hpn
        · exact h
      exact hrel n hnK p hpD
  · intro c hc hne hmem hnotin
    have hkt : keep = ((insSort (rankLE (degOf nodesAll edgesAll)) nodesAll).take M).dropLast
        ++ [c] := by
      rw [hkeep, hc]
      exact globalKeep_eq_evict M nodesAll edgesAll hne hmem (by rwa [hranked] at hnotin)
    have := List.toFinset_eq_of_perm _ _ hperm
    rw [this, hkt, List.toFinset_append, hranked]
    simp [Finset.insert_eq, Finset.union_comm]

/-- 51 distinct two-character note names (`A0`–`E9` and `F0`) used by the
`C8` witness. -/
def c8Existing : List Str :=
  (List.range 51).map (fun i => [Char.ofNat (65 + i / 10), Char.ofNat (48 + i % 10)])

set_option maxRecDepth 40000

/-- Witness for `C8_global_mode_size_limit`: 51 existing notes, empty
snapshot, budget 50, center `F0` (ranked last, hence dropped by the
budget): the returned node set is the top 50 with the lowest-ranked kept
node evicted in favour of `F0`. -/
theorem C8_witness :
    (graphRun GraphMode.globalMode 1 (some (str "F0")) [] c8Existing 50 250).nodes.toFinset
      = insert (str "F0") (((rankedOf [] c8Existing).take (max 50 50)).dropLast.toFinset) :=
  (C8_global_mode_size_limit 1 (some (str "F0")) [] c8Existing 50 250
      (by decide)).2.2.2.2 (str "F0") rfl (by decide) (by decide) (by decide)

/-! ## Stability of `safe_filename` (claim C6)

The idempotence analysis: the canonical form `t` of a title is a fixed
point of `safe_filename` whenever `t` is nonempty, NFKC-normal, and no
truncation occurred (the counterexample below shows a cleaned name of 121
dot characters truncating to the empty string).  The lemmas here track the
character-level invariants of the cleaning pipeline's output. -/

lemma composePair_none_of_snd_ascii {a b : Char} (h : b.toNat ≤ 0x7e) :
    composePair a b = none := by
  unfold composePair
  split_ifs with h1 h2 h3 h4 <;> first
    | rfl
    | (first
        | (exact absurd (h1.2 ▸ h) (by decide))
        | (exact absurd (h2.2 ▸ h) (by decide))
        | (exact absurd (h3.2 ▸ h) (by decide))
        | (exact absurd (h4.2 ▸ h) (by decide)))

lemma composePair_none_of_fst_ws {a b : Char} (h : pyWhitespace a = true) :
    composePair a b = none := by
  unfold composePair
  split_ifs with h1 h2 h3 h4 <;> first
    | rfl
    | (first
        | (exact absurd (h1.1 ▸ h) (by decide))
        | (exact absurd (h2.1 ▸ h) (by decide))
        | (exact absurd (h3.1 ▸ h) (by decide))
        | (exact absurd (h4.1 ▸ h) (by decide)))

lemma compatMap_ascii {c : Char} (h : c.toNat ≤ 0x7e) : compatMap c = [c] := by
  unfold compatMap
  split_ifs with h1 h2 h3 <;> first
    | rfl
    | (first
        | (exact absurd (h1 ▸ h) (by decide))
        | (exact absurd (h2 ▸ h) (by decide))
        | (exact absurd (h3 ▸ h) (by decide)))

lemma compatMap_ws {c : Char} (h : pyWhitespace c = true) :
    ∀ d ∈ compatMap c, pyWhitespace d = true := by
  intro d hd
  unfold compatMap at hd
  split_ifs at hd <;> simp only [List.mem_singleton] at hd <;> subst hd
  · decide
  · decide
  · decide
  · exact h

lemma canonComposeAux_id :
    ∀ (rest : Str) (a : Char),
      (∀ x ∈ a :: rest, ∀ b ∈ rest, composePair x b = none) →
      canonComposeAux a rest = a :: rest
  | [], _, _ => rfl
  | b :: rest, a, h => by
    have hab : composePair a b = none :=
      h a (List.mem_cons_self _ _) b (List.mem_cons_self _ _)
    simp only [canonComposeAux, hab]
    rw [canonComposeAux_id rest b]
    intro x hx d hd
    exact h x (List.mem_cons_of_mem _ hx) d (List.mem_cons_of_mem _ hd)

lemma flatMap_compat_ascii {s : Str} (h : ∀ c ∈ s, c.toNat ≤ 0x7e) :
    s.flatMap compatMap = s := by
  induction s with
  | nil => rfl
  | cons c rest ih =>
    rw [List.flatMap_cons, compatMap_ascii (h c (List.mem_cons_self _ _)),
      ih (fun d hd => h d (List.mem_cons_of_mem _ hd))]
    rfl

lemma nfkc_ascii {s : Str} (h : ∀ c ∈ s, c.toNat ≤ 0x7e) : nfkc s = s := by
  unfold nfkc
  rw [flatMap_compat_ascii h]
  cases s with
  | nil => rfl
  | cons a rest =>
    exact canonComposeAux_id rest a fun x _ b hb =>
      composePair_none_of_snd_ascii (h b (List.mem_cons_of_mem _ hb))

lemma nfkc_ws {s : Str} (h : ∀ c ∈ s, pyWhitespace c = true) :
    ∀ c ∈ nfkc s, pyWhitespace c = true := by
  have hflat : ∀ c ∈ s.flatMap compatMap, pyWhitespace c = true := by
    intro c hc
    rw [List.mem_flatMap] at hc
    obtain ⟨d, hd, hc⟩ := hc
    exact compatMap_ws (h d hd) c hc
  unfold nfkc
  cases hs : s.flatMap compatMap with
  | nil => simp [canonCompose]
  | cons a rest =>
    rw [canonCompose, canonComposeAux_id rest a]
    · rw [← hs]
      exact hflat
    · intro x hx b _
      exact composePair_none_of_fst_ws (hflat x (hs ▸ hx))

lemma sfPre_ws_nil {s : Str} (h : ∀ c ∈ s, pyWhitespace c = true) : sfPre s = [] := by
  unfold sfPre
  have h2 : ∀ c ∈ (nfkc s).filter (fun c => !isCatC c), pyWhitespace c = true :=
    fun c hc => nfkc_ws h c (List.mem_of_mem_filter hc)
  have h3 : pyStrip ((nfkc s).filter (fun c => !isCatC c)) = [] := by
    unfold pyStrip
    rw [List.dropWhile_eq_nil_iff.mpr h2]
    simp [List.rdropWhile]
  dsimp only
  rw [h3]
  rfl

/-- Whitespace-only titles clean to the empty string, hence hit the random
fallback. -/
lemma sfCore_ws_none {s : Str} (h : ∀ c ∈ s, pyWhitespace c = true) :
    sfCore s = none := by
  unfold sfCore
  rw [sfPre_ws_nil h]
  rfl

/-- No two adjacent whitespace characters. -/
def NoWW (l : Str) : Prop :=
  List.Chain' (fun a b => ¬(pyWhitespace a = true ∧ pyWhitespace b = true)) l

lemma collapse_mem :
    ∀ (b : Bool) (l : Str), ∀ c ∈ collapseWSAux b l,
      c = ' ' ∨ (c ∈ l ∧ pyWhitespace c = false)
  | _, [], _, h => by simp [collapseWSAux] at h
  | b, d :: rest, c, h => by
    simp only [collapseWSAux] at h
    by_cases hd : pyWhitespace d = true
    · rw [if_pos hd] at h
      cases b with
      | true =>
        rcases collapse_mem true rest c h with h' | h'
        · exact Or.inl h'
        · exact Or.inr ⟨List.mem_cons_of_mem _ h'.1, h'.2⟩
      | false =>
        rcases List.mem_cons.mp h with rfl | h
        · exact Or.inl rfl
        · rcases collapse_mem true rest c h with h' | h'
          · exact Or.inl h'
          · exact Or.inr ⟨List.mem_cons_of_mem _ h'.1, h'.2⟩
    · rw [if_neg hd] at h
      rcases List.mem_cons.mp h with rfl | h
      · exact Or.inr ⟨List.mem_cons_self _ _, by simpa using hd⟩
      · rcases collapse_mem false rest c h with h' | h'
        · exact Or.inl h'
        · exact Or.inr ⟨List.mem_cons_of_mem _ h'.1, h'.2⟩

lemma collapse_head_true :
    ∀ (l : Str) (c : Char), (collapseWSAux true l).head? = some c →
      pyWhitespace c = false
  | [], c, h => by simp [collapseWSAux] at h
  | d :: rest, c, h => by
    simp only [collapseWSAux] at h
    by_cases hd : pyWhitespace d = true
    · rw [if_pos hd] at h
      exact collapse_head_true rest c h
    · rw [if_neg hd] at h
      simp only [List.head?_cons, Option.some_inj] at h
      subst h
      simpa using hd

lemma collapse_chain : ∀ (b : Bool) (l : Str), NoWW (collapseWSAux b l)
  | _, [] => List.chain'_nil
  | b, d :: rest => by
    simp only [collapseWSAux]
    by_cases hd : pyWhitespace d = true
    · rw [if_pos hd]
      cases b with
      | true => exact collapse_chain true rest
      | false =>
        refine List.chain'_cons'.mpr ⟨?_, collapse_chain true rest⟩
        intro y hy
        rintro ⟨-, hwy⟩
        exact absurd hwy (by simpa using collapse_head_true rest y (by simpa using hy))
    · rw [if_neg hd]
      refine List.chain'_cons'.mpr ⟨?_, collapse_chain false rest⟩
      intro y _
      rintro ⟨hwd, -⟩
      exact hd hwd

lemma collapse_true_eq_false {l : Str}
    (h : ∀ c, l.head? = some c → pyWhitespace c = false) :
    collapseWSAux true l = collapseWSAux false l := by
  cases l with
  | nil => rfl
  | cons c rest =>
    have := h c rfl
    simp only [collapseWSAux, this]
    rw [if_neg (by simp [this]), if_neg (by simp [this])]

lemma collapse_id :
    ∀ l : Str, (∀ c ∈ l, pyWhitespace c = true → c = ' ') → NoWW l →
      collapseWSAux false l = l
  | [], _, _ => rfl
  | c :: rest, h2, h4 => by
    simp only [collapseWSAux]
    obtain ⟨hhead, htail⟩ := List.chain'_cons'.mp h4
    by_cases hc : pyWhitespace c = true
    · rw [if_pos hc]
      have hc' : c = ' ' := h2 c (List.mem_cons_self _ _) hc
      subst hc'
      have hrest : ∀ d, rest.head? = some d → pyWhitespace d = false := by
        intro d hd
        by_contra hw
        exact hhead d hd ⟨hc, by simpa using hw⟩
      rw [collapse_true_eq_false hrest,
        collapse_id rest (fun d hd => h2 d (List.mem_cons_of_mem _ hd)) htail]
      simp
    · rw [if_neg hc,
        collapse_id rest (fun d hd => h2 d (List.mem_cons_of_mem _ hd)) htail]

lemma map_id_of {l : Str} {f : Char → Char} (h : ∀ c ∈ l, f c = c) :
    l.map f = l := by
  induction l with
  | nil => rfl
  | cons c rest ih =>
    rw [List.map_cons, h c (List.mem_cons_self _ _),
      ih (fun d hd => h d (List.mem_cons_of_mem _ hd))]

lemma pyStrip_id {l : Str}
    (hh : ∀ c, l.head? = some c → pyWhitespace c = false)
    (hl : ∀ c, l.getLast? = some c → pyWhitespace c = false) :
    pyStrip l = l := by
  unfold pyStrip
  have h1 : l.dropWhile pyWhitespace = l := by
    cases l with
    | nil => rfl
    | cons c rest =>
      rw [List.dropWhile_cons, if_neg (by simp [hh c rfl])]
  rw [h1, List.rdropWhile_eq_self_iff]
  intro hne
  rw [List.getLast?_eq_getLast l hne] at hl
  simp [hl (l.getLast hne) rfl]

lemma rstripDotSpace_id {l : Str}
    (h : ∀ c, l.getLast? = some c → (c = ' ' || c = '.') = false) :
    rstripDotSpace l = l := by
  unfold rstripDotSpace
  rw [List.rdropWhile_eq_self_iff]
  intro hne
  rw [List.getLast?_eq_getLast l hne] at h
  simp [h (l.getLast hne) rfl]

/-- A string satisfying the character-level invariants of the cleaning
pipeline's output — no category-C characters, no forbidden filesystem
characters, whitespace only as single interior spaces, no leading
whitespace, no trailing space or dot, NFKC-normal, within the length
limit, not a reserved name — is a fixed point of the deterministic part of
`safe_filename`. -/
lemma sfCore_stable (t : Str) (hne : t ≠ [])
    (hC : ∀ c ∈ t, isCatC c = false)
    (hI : ∀ c ∈ t, invalidFileChar c = false)
    (hW : ∀ c ∈ t, pyWhitespace c = true → c = ' ')
    (hch : NoWW t)
    (hh : ∀ c, t.head? = some c → pyWhitespace c = false)
    (hlast : ∀ c, t.getLast? = some c → (c = ' ' || c = '.') = false)
    (hn : nfkc t = t)
    (hlen : t.length ≤ 120)
    (hres : reservedKey t ∉ reservedNames) :
    sfCore t = some t := by
  have hlastmem : ∀ c, t.getLast? = some c → c ∈ t := by
    intro c hc
    rw [List.getLast?_eq_getLast t hne, Option.some_inj] at hc
    exact hc ▸ List.getLast_mem hne
  have hstrip : pyStrip t = t := by
    refine pyStrip_id hh ?_
    intro c hc
    by_contra hw
    have : c = ' ' := hW c (hlastmem c hc) (by simpa using hw)
    subst this
    simpa using hlast ' ' hc
  have hmap1 : t.map (fun c => if c = '/' || c = '\\' then '-' else c) = t := by
    refine map_id_of ?_
    intro c hc
    have h1 : ¬(c = '/') := by
      rintro rfl
      exact absurd (hI '/' hc) (by decide)
    have h2 : ¬(c = '\\') := by
      rintro rfl
      exact absurd (hI '\\' hc) (by decide)
    simp [h1, h2]
  have hmap2 : t.map (fun c => if invalidFileChar c then '_' else c) = t := by
    refine map_id_of ?_
    intro c hc
    simp [hI c hc]
  have hcoll : collapseWS t = t := collapse_id t hW hch
  have hpre : sfPre t = t := by
    unfold sfPre
    dsimp only
    rw [hn, List.filter_eq_self.mpr (by intro c hc; simp [hC c hc]),
      hstrip, hmap1, hmap2, hcoll, rstripDotSpace_id hlast]
  unfold sfCore
  rw [hpre, if_neg hne]
  unfold sfPost
  rw [if_neg hres]
  dsimp only
  rw [if_neg (by omega)]

lemma head?_of_prefix {l₁ l₂ : Str} (h : l₁ <+: l₂) (hne : l₁ ≠ []) :
    l₂.head? = l₁.head? := by
  obtain ⟨t, rfl⟩ := h
  cases l₁ with
  | nil => exact absurd rfl hne
  | cons c r => rfl

lemma pyStrip_subset {l : Str} : ∀ c ∈ pyStrip l, c ∈ l := by
  intro c hc
  unfold pyStrip at hc
  exact (List.dropWhile_suffix pyWhitespace).mem
    (( List.rdropWhile_prefix pyWhitespace _).mem hc)

lemma pyStrip_head {l : Str} : ∀ c, (pyStrip l).head? = some c →
    pyWhitespace c = false := by
  intro c hc
  unfold pyStrip at hc
  by_cases hne : (l.dropWhile pyWhitespace).rdropWhile pyWhitespace = []
  · rw [hne] at hc
    simp at hc
  · rw [← head?_of_prefix ( List.rdropWhile_prefix pyWhitespace _) hne] at hc
    have := List.head?_dropWhile_not pyWhitespace l
    rw [hc] at this
    exact this

lemma collapse_head_false {l : Str} {c : Char} (h : l.head? = some c)
    (hw : pyWhitespace c = false) :
    (collapseWSAux false l).head? = some c := by
  cases l with
  | nil => simp at h
  | cons d r =>
    rw [List.head?_cons, Option.some_inj] at h
    subst h
    simp only [collapseWSAux, hw]
    rw [if_neg (by simp [hw])]
    rfl

lemma getLast?_ne_nil {l : Str} {c : Char} (h : l.getLast? = some c) : l ≠ [] := by
  rintro rfl
  simp at h

/-- The character-level invariants of the cleaning pipeline's output. -/
lemma sfPre_props (s : Str) :
    (∀ c ∈ sfPre s, isCatC c = false) ∧
    (∀ c ∈ sfPre s, invalidFileChar c = false) ∧
    (∀ c ∈ sfPre s, pyWhitespace c = true → c = ' ') ∧
    NoWW (sfPre s) ∧
    (∀ c, (sfPre s).head? = some c → pyWhitespace c = false) ∧
    (∀ c, (sfPre s).getLast? = some c → (c = ' ' || c = '.') = false) := by
  unfold sfPre rstripDotSpace collapseWS
  dsimp only
  set s2 := (nfkc s).filter (fun c => !isCatC c) with hs2
  set s3 := pyStrip s2 with hs3
  set s4 := s3.map (fun c => if c = '/' || c = '\\' then '-' else c) with hs4
  set s5 := s4.map (fun c => if invalidFileChar c then '_' else c) with hs5
  set s6 := collapseWSAux false s5 with hs6
  have hm6 : ∀ c ∈ List.rdropWhile (fun c => c = ' ' || c = '.') s6, c ∈ s6 :=
    fun c hc => ( List.rdropWhile_prefix _ _).mem hc
  have h2C : ∀ c ∈ s2, isCatC c = false := by
    intro c hc
    rw [hs2] at hc
    have := List.of_mem_filter hc
    simpa using this
  have h4CI : ∀ c ∈ s4, isCatC c = false := by
    intro c hc
    rw [hs4, List.mem_map] at hc
    obtain ⟨d, hd, rfl⟩ := hc
    by_cases hsep : (d = '/' || d = '\\') = true
    · rw [if_pos hsep]; decide
    · rw [if_neg hsep]
      exact h2C d (pyStrip_subset d (hs3 ▸ hd))
  have h5C : ∀ c ∈ s5, isCatC c = false := by
    intro c hc
    rw [hs5, List.mem_map] at hc
    obtain ⟨d, hd, rfl⟩ := hc
    by_cases hin : invalidFileChar d = true
    · rw [if_pos hin]; decide
    · rw [if_neg hin]
      exact h4CI d hd
  have h5I : ∀ c ∈ s5, invalidFileChar c = false := by
    intro c hc
    rw [hs5, List.mem_map] at hc
    obtain ⟨d, hd, rfl⟩ := hc
    by_cases hin : invalidFileChar d = true
    · rw [if_pos hin]; decide
    · rw [if_neg hin]
      simpa using hin
  have h6C : ∀ c ∈ s6, isCatC c = false := by
    intro c hc
    rcases collapse_mem false s5 c (hs6 ▸ hc) with rfl | h
    · decide
    · exact h5C c h.1
  have h6I : ∀ c ∈ s6, invalidFileChar c = false := by
    intro c hc
    rcases collapse_mem false s5 c (hs6 ▸ hc) with rfl | h
    · decide
    · exact h5I c h.1
  have h6W : ∀ c ∈ s6, pyWhitespace c = true → c = ' ' := by
    intro c hc hw
    rcases collapse_mem false s5 c (hs6 ▸ hc) with rfl | h
    · rfl
    · rw [h.2] at hw
      exact absurd hw (by simp)
  have h5head : ∀ c, s5.head? = some c → pyWhitespace c = false := by
    intro c hc
    rw [hs5, List.head?_map, hs4, List.head?_map] at hc
    cases h3 : (pyStrip s2).head? with
    | none =>
      rw [hs3, h3] at hc
      simp at hc
    | some d =>
      rw [hs3, h3] at hc
      have hc' : (fun c => if invalidFileChar c then '_' else c)
          ((fun c => if c = '/' || c = '\\' then '-' else c) d) = c := by
        simpa using hc
      have hd : pyWhitespace d = false := pyStrip_head d h3
      rw [← hc']
      simp only []
      by_cases hsep : (d = '/' || d = '\\') = true
      · rw [if_pos hsep]
        decide
      · rw [if_neg hsep]
        by_cases hin : invalidFileChar d = true
        · rw [if_pos hin]; decide
        · rw [if_neg hin]; exact hd
  refine ⟨fun c hc => h6C c (hm6 c hc), fun c hc => h6I c (hm6 c hc),
    fun c hc hw => h6W c (hm6 c hc) hw, ?_, ?_, ?_⟩
  · exact List.Chain'.prefix (collapse_chain false s5) ( List.rdropWhile_prefix _ _)
  · intro c hc
    have hpne : List.rdropWhile (fun c => c = ' ' || c = '.') s6 ≠ [] := by
      rintro h0
      rw [h0] at hc
      simp at hc
    rw [← head?_of_prefix ( List.rdropWhile_prefix _ _) hpne] at hc
    cases h5 : s5.head? with
    | none =>
      have h5nil : s5 = [] := by
        cases hx : s5 with
        | nil => rfl
        | cons a b => rw [hx] at h5; simp at h5
      rw [hs6, h5nil] at hc
      simp [collapseWSAux] at hc
    | some d =>
      have hd := h5head d h5
      have hcf := collapse_head_false h5 hd
      rw [← hs6] at hcf
      rw [hcf, Option.some_inj] at hc
      rw [← hc]
      exact hd
  · intro c hc
    have hpne := getLast?_ne_nil hc
    rw [List.getLast?_eq_getLast _ hpne, Option.some_inj] at hc
    have hlast := List.rdropWhile_last_not (fun c => c = ' ' || c = '.') s6 hpne
    rw [← hc]
    simpa using hlast

/-- The ranking of `sfPost` without truncation. -/
lemma sfPost_no_trunc {p : Str}
    (hlen : (if reservedKey p ∈ reservedNames then 1 else 0) + p.length ≤ 120) :
    sfPost p = (if reservedKey p ∈ reservedNames then ['_'] else []) ++ p := by
  unfold sfPost
  dsimp only
  by_cases hr : reservedKey p ∈ reservedNames
  · rw [if_pos hr, if_pos hr] at *
    rw [if_neg (by simp only [List.length_cons]; omega)]
    rfl
  · rw [if_neg hr, if_neg hr] at *
    rw [if_neg (by omega)]
    rfl

lemma reservedKey_cons_underscore (p : Str) :
    reservedKey ('_' :: p) ∉ reservedNames := by
  intro hmem
  have htake : ('_' :: p).takeWhile (fun c => c ≠ '.') =
      '_' :: p.takeWhile (fun c => c ≠ '.') := by
    rw [List.takeWhile_cons, if_pos (by decide)]
  have hdrop : ('_' :: p.takeWhile (fun c => c ≠ '.')).dropWhile pyWhitespace =
      '_' :: p.takeWhile (fun c => c ≠ '.') := by
    rw [List.dropWhile_cons, if_neg (by decide)]
  have hne : List.rdropWhile pyWhitespace ('_' :: p.takeWhile (fun c => c ≠ '.')) ≠ [] := by
    rw [Ne, List.rdropWhile_eq_nil_iff]
    intro h
    exact absurd (h '_' (List.mem_cons_self _ _)) (by decide)
  have hhead : (reservedKey ('_' :: p)).head? = some '_' := by
    unfold reservedKey pyStrip lowerS
    rw [htake, hdrop, List.head?_map,
      ← head?_of_prefix ( List.rdropWhile_prefix pyWhitespace _) hne]
    rfl
  have : ∀ r ∈ reservedNames, r.head? ≠ some '_' := by decide
  exact this _ hmem hhead

/-- The hexadecimal digits `uuid4().hex` draws from. -/
def hexChars : Str := str "0123456789abcdef"

/-- The shape of a real fallback token: six lowercase hex digits. -/
def UuidTok (u : Str) : Prop := u.length = 6 ∧ ∀ c ∈ u, c ∈ hexChars

lemma noWW_of_no_ws : ∀ l : Str, (∀ c ∈ l, pyWhitespace c = false) → NoWW l
  | [], _ => List.chain'_nil
  | c :: rest, h => by
    refine List.chain'_cons'.mpr ⟨?_, noWW_of_no_ws rest
      (fun d hd => h d (List.mem_cons_of_mem _ hd))⟩
    intro y _
    rintro ⟨hw, -⟩
    exact absurd hw (by simp [h c (List.mem_cons_self _ _)])

lemma head?_mem {l : Str} {c : Char} (h : l.head? = some c) : c ∈ l := by
  cases l with
  | nil => simp at h
  | cons a b =>
    rw [List.head?_cons, Option.some_inj] at h
    exact h ▸ List.mem_cons_self _ _

lemma getLast?_mem' {l : Str} {c : Char} (h : l.getLast? = some c) : c ∈ l := by
  have hne := getLast?_ne_nil h
  rw [List.getLast?_eq_getLast _ hne, Option.some_inj] at h
  exact h ▸ List.getLast_mem hne

lemma untitled_char_facts :
    ∀ c ∈ str "Untitled-" ++ hexChars,
      isCatC c = false ∧ invalidFileChar c = false ∧ pyWhitespace c = false ∧
      c.toNat ≤ 0x7e ∧ (c = ' ' || c = '.') = false ∧ c ≠ '.' := by
  decide

lemma untitled_mem {u : Str} (hu : ∀ c ∈ u, c ∈ hexChars) :
    ∀ c ∈ untitled u, c ∈ str "Untitled-" ++ hexChars := by
  intro c hc
  rcases List.mem_append.mp hc with h | h
  · exact List.mem_append.mpr (Or.inl h)
  · exact List.mem_append.mpr (Or.inr (hu c h))

/-- A well-formed fallback name `Untitled-xxxxxx` is a fixed point of the
cleaning pipeline and of `sfPost`. -/
lemma untitled_stable {u : Str} (hu : UuidTok u) :
    sfPost (untitled u) = untitled u ∧ sfCore (untitled u) = some (untitled u) := by
  obtain ⟨hul, huc⟩ := hu
  have hmem := untitled_mem huc
  have hfacts := fun c hc => untitled_char_facts c (hmem c hc)
  have hne : untitled u ≠ [] := by
    unfold untitled str
    simp
  have hlen : (untitled u).length = 15 := by
    unfold untitled
    rw [List.length_append, hul]
    rfl
  have hkey : reservedKey (untitled u) = lowerS (untitled u) := by
    unfold reservedKey
    rw [List.takeWhile_eq_self_iff.mpr (by
        intro c hc
        simpa using (hfacts c hc).2.2.2.2.2),
      pyStrip_id (fun c hc => (hfacts c (head?_mem hc)).2.2.1)
        (fun c hc => (hfacts c (getLast?_mem' hc)).2.2.1)]
  have hres : reservedKey (untitled u) ∉ reservedNames := by
    rw [hkey]
    intro hmem'
    have hlenr : ∀ r ∈ reservedNames, r.length ≤ 4 := by decide
    have := hlenr _ hmem'
    rw [lowerS, List.length_map, hlen] at this
    omega
  have hpost : sfPost (untitled u) = untitled u := by
    unfold sfPost
    dsimp only
    rw [if_neg hres, if_neg (by rw [hlen]; omega)]
  refine ⟨hpost, ?_⟩
  refine sfCore_stable (untitled u) hne
    (fun c hc => (hfacts c hc).1)
    (fun c hc => (hfacts c hc).2.1)
    (fun c hc hw => absurd hw (by simp [(hfacts c hc).2.2.1]))
    (noWW_of_no_ws _ (fun c hc => (hfacts c hc).2.2.1))
    (fun c hc => (hfacts c (head?_mem hc)).2.2.1)
    (fun c hc => (hfacts c (getLast?_mem' hc)).2.2.2.2.1)
    (nfkc_ascii (fun c hc => (hfacts c hc).2.2.2.1))
    (by rw [hlen]; omega)
    hres


/-- **C6, counterexample.**  Canonicalization is not idempotent on all
inputs: for the 121-character title of 120 dots followed by `a`, the
cleaned name survives the emptiness check (it ends in `a`) but the final
length truncation cuts it to 120 dots, which `rstrip(" .")` then reduces
to the empty string — `canonicalize` returns `""`.  Canonicalizing this
again falls into the random fallback and returns `Untitled-…`, so
`canonicalize(canonicalize(s)) ≠ canonicalize(s)`. -/
theorem C6_counterexample :
    safe_filename (str "aaaaaa") (List.replicate 120 '.' ++ ['a']) = [] ∧
    safe_filename (str "bbbbbb")
        (safe_filename (str "aaaaaa") (List.replicate 120 '.' ++ ['a'])) =
      str "Untitled-bbbbbb" ∧
    safe_filename (str "bbbbbb")
        (safe_filename (str "aaaaaa") (List.replicate 120 '.' ++ ['a'])) ≠
      safe_filename (str "aaaaaa") (List.replicate 120 '.' ++ ['a']) := by
  refine ⟨by decide, by decide, ?_⟩
  decide

/-- **C6, amended.**  Canonicalization is stable in every case except the
two the counterexample family exposes (a canonical form emptied by the
length truncation, or one that is not NFKC-normal):
(1) if the cleaned name is produced deterministically (`sfCore s = some t`),
is nonempty, is NFKC-normal and was not truncated, then `t` is a fixed
point, so `canonicalize(canonicalize(s)) = canonicalize(s)`;
(2) inputs that clean to empty (the random-fallback path) are stable for
every well-formed six-hex-digit token — this covers the empty string and
all whitespace-only strings, which clean to empty by (3) and (4);
Windows-reserved names such as `"CON"` fall under (1) via the underscore
prefix (see the witness). -/
theorem C6_canonicalize_idempotent_amended :
    (∀ (s u u' t : Str), sfCore s = some t → t ≠ [] → nfkc t = t →
      (if reservedKey (sfPre s) ∈ reservedNames then 1 else 0) + (sfPre s).length ≤ 120 →
      safe_filename u' (safe_filename u s) = safe_filename u s) ∧
    (∀ (s u u' : Str), sfCore s = none → UuidTok u →
      safe_filename u' (safe_filename u s) = safe_filename u s) ∧
    (∀ s : Str, (∀ c ∈ s, pyWhitespace c = true) → sfCore s = none) ∧
    sfCore [] = none := by
  refine ⟨?_, ?_, fun s h => sfCore_ws_none h, by decide⟩
  · intro s u u' t hcore hne hn hlen
    rw [safe_filename_of_sfCore hcore u]
    have hps : sfPre s ≠ [] ∧ t = sfPost (sfPre s) := by
      unfold sfCore at hcore
      by_cases h : sfPre s = []
      · rw [if_pos h] at hcore
        exact absurd hcore (by simp)
      · rw [if_neg h] at hcore
        exact ⟨h, (Option.some_inj.mp hcore).symm⟩
    obtain ⟨hpne, ht⟩ := hps
    obtain ⟨hC, hI, hW, hch, hh, hlast⟩ := sfPre_props s
    have hpost := sfPost_no_trunc hlen
    refine safe_filename_of_sfCore ?_ u'
    by_cases hr : reservedKey (sfPre s) ∈ reservedNames
    · have htv : t = '_' :: sfPre s := by
        rw [ht, hpost, if_pos hr]
        rfl
      rw [htv] at hn ⊢
      refine sfCore_stable _ (by simp) ?_ ?_ ?_ ?_ ?_ ?_ hn ?_ ?_
      · intro c hc
        rcases List.mem_cons.mp hc with rfl | hc
        · decide
        · exact hC c hc
      · intro c hc
        rcases List.mem_cons.mp hc with rfl | hc
        · decide
        · exact hI c hc
      · intro c hc hw
        rcases List.mem_cons.mp hc with rfl | hc
        · exact absurd hw (by decide)
        · exact hW c hc hw
      · refine List.chain'_cons'.mpr ⟨?_, hch⟩
        intro y _
        rintro ⟨hw, -⟩
        exact absurd hw (by decide)
      · intro c hc
        rw [List.head?_cons, Option.some_inj] at hc
        subst hc
        decide
      · intro c hc
        rw [show ('_' :: sfPre s) = ['_'] ++ sfPre s from rfl,
          List.getLast?_append] at hc
        cases hg : (sfPre s).getLast? with
        | none =>
          exact absurd hg (by
            cases hx : sfPre s with
            | nil => exact absurd hx hpne
            | cons a b => simp [hx])
        | some d =>
          rw [hg] at hc
          simp only [Option.or_some, Option.some_inj] at hc
          subst hc
          exact hlast d hg
      · rw [if_pos hr] at hlen
        simp only [List.length_cons]
        omega
      · exact reservedKey_cons_underscore (sfPre s)
    · have htv : t = sfPre s := by
        rw [ht, hpost, if_neg hr]
        rfl
      rw [htv] at hn ⊢
      refine sfCore_stable _ hpne hC hI hW hch hh hlast hn ?_ hr
      rw [if_neg hr] at hlen
      omega
  · intro s u u' hnone hu
    have h1 : safe_filename u s = sfPost (untitled u) := by
      unfold safe_filename
      rw [hnone]
    rw [h1, (untitled_stable hu).1]
    exact safe_filename_of_sfCore (untitled_stable hu).2 u'

/-- Witness for `C6_canonicalize_idempotent_amended`: the Windows-reserved
name `"CON"` (deterministic clause, canonical form `"_CON"`), the empty
string and a whitespace-only string (fallback clause with hex token
`"abc123"`). -/
theorem C6_witness :
    safe_filename (str "dddddd") (safe_filename (str "abc123") (str "CON")) =
        safe_filename (str "abc123") (str "CON") ∧
    safe_filename (str "dddddd") (safe_filename (str "abc123") []) =
        safe_filename (str "abc123") [] ∧
    safe_filename (str "dddddd") (safe_filename (str "abc123") (str "  ")) =
        safe_filename (str "abc123") (str "  ") :=
  ⟨C6_canonicalize_idempotent_amended.1 (str "CON") (str "abc123") (str "dddddd")
      (str "_CON") (by decide) (by decide) (by decide) (by decide),
   C6_canonicalize_idempotent_amended.2.1 [] (str "abc123") (str "dddddd")
      (by decide) ⟨by decide, by decide⟩,
   C6_canonicalize_idempotent_amended.2.1 (str "  ") (str "abc123") (str "dddddd")
      (C6_canonicalize_idempotent_amended.2.2.1 (str "  ") (by decide))
      ⟨by decide, by decide⟩⟩

/-! ## Round-trip of `rewrite_wikilinks_targets` (claim C3)

The development below characterizes the scanner, shows that rewriting
preserves the span structure of the text, and proves a per-span round-trip
lemma, yielding the amended round-trip theorem. -/

lemma takeWhile_append_marker {p : Char → Bool} {m : Char} (hm : p m = false) :
    ∀ (a b : Str), (∀ c ∈ a, p c = true) →
    (a ++ m :: b).takeWhile p = a ∧ (a ++ m :: b).dropWhile p = m :: b := by
  intro a
  induction a with
  | nil =>
    intro b _
    refine ⟨?_, ?_⟩
    · rw [List.nil_append, List.takeWhile_cons, hm]
      simp
    · rw [List.nil_append, List.dropWhile_cons, hm]
      simp
  | cons c rest ih =>
    intro b h
    have hc : p c = true := h c (List.mem_cons_self _ _)
    have hrec := ih b (fun d hd => h d (List.mem_cons_of_mem _ hd))
    refine ⟨?_, ?_⟩
    · rw [List.cons_append, List.takeWhile_cons, hc, hrec.1]
      simp
    · rw [List.cons_append, List.dropWhile_cons, hc, hrec.2]
      simp

/-- `takeInner` success forces the `([^\]]+)\]\]` shape. -/
lemma takeInner_eq_some {rest i r : Str} (h : takeInner rest = some (i, r)) :
    rest = i ++ ']' :: ']' :: r ∧ i ≠ [] ∧ ∀ c ∈ i, c ≠ ']' := by
  unfold takeInner at h
  dsimp only at h
  by_cases h1 : rest.takeWhile (fun c => c ≠ ']') = []
  · rw [if_pos h1] at h
    exact absurd h (by simp)
  · rw [if_neg h1] at h
    by_cases h2 : (rest.dropWhile (fun c => c ≠ ']')).take 2 = [']', ']']
    · rw [if_pos h2] at h
      have hi : i = rest.takeWhile (fun c => c ≠ ']') := by
        simpa using congrArg (fun o => (o.map Prod.fst).getD []) h.symm
      have hr : r = (rest.dropWhile (fun c => c ≠ ']')).drop 2 := by
        simpa using congrArg (fun o => (o.map Prod.snd).getD []) h.symm
      subst hi
      subst hr
      refine ⟨?_, h1, ?_⟩
      · conv_lhs => rw [← List.takeWhile_append_dropWhile
          (p := fun c => decide (c ≠ ']')) (l := rest)]
        congr 1
        conv_lhs => rw [← List.take_append_drop 2
          (rest.dropWhile (fun c => c ≠ ']')), h2]
        rfl
      · intro c hc
        have := List.mem_takeWhile_imp hc
        simpa using this
    · rw [if_neg h2] at h
      exact absurd h (by simp)

/-- Converse: `takeInner` recognizes a well-formed span head. -/
lemma takeInner_span {i r : Str} (hne : i ≠ []) (hnb : ∀ c ∈ i, c ≠ ']') :
    takeInner (i ++ ']' :: ']' :: r) = some (i, r) := by
  have hw := takeWhile_append_marker (p := fun c => decide (c ≠ ']'))
    (m := ']') (by simp) i (']' :: r) (by intro c hc; simpa using hnb c hc)
  unfold takeInner
  dsimp only
  rw [hw.1, hw.2, if_neg hne, if_pos (by simp)]
  rfl

/-- Prepending a non-`]` character extends a successful match. -/
lemma takeInner_cons_some {c : Char} (hc : c ≠ ']') {t i r : Str}
    (h : takeInner t = some (i, r)) : takeInner (c :: t) = some (c :: i, r) := by
  obtain ⟨rfl, hne, hnb⟩ := takeInner_eq_some h
  have := takeInner_span (i := c :: i) (r := r) (by simp)
    (by
      intro d hd
      rcases List.mem_cons.mp hd with hdc | hd
      · exact hdc ▸ hc
      · exact hnb d hd)
  simpa using this

lemma wikiSegsF_nil : ∀ f, wikiSegsF f [] = []
  | 0 => rfl
  | _ + 1 => rfl

/-- One-step unfolding of the fueled scanner. -/
lemma wikiSegsF_cons (fuel : Nat) (c : Char) (rest : Str) :
    wikiSegsF (fuel + 1) (c :: rest) =
      if c = '[' ∧ rest.head? = some '[' then
        match takeInner rest.tail with
        | some (i, r) => .span i :: wikiSegsF fuel r
        | none => .lit c :: wikiSegsF fuel rest
      else .lit c :: wikiSegsF fuel rest := by
  simp only [wikiSegsF]

/-- Any sufficient fuel computes the same token list. -/
lemma wikiSegsF_fuel : ∀ (n : Nat) (s : Str), s.length ≤ n →
    ∀ f₁ f₂, s.length ≤ f₁ → s.length ≤ f₂ → wikiSegsF f₁ s = wikiSegsF f₂ s := by
  intro n
  induction n with
  | zero =>
    intro s hs f₁ f₂ _ _
    have hnil : s = [] := List.eq_nil_of_length_eq_zero (Nat.le_zero.mp hs)
    subst hnil
    rw [wikiSegsF_nil, wikiSegsF_nil]
  | succ n ih =>
    intro s hs f₁ f₂ h1 h2
    cases s with
    | nil => rw [wikiSegsF_nil, wikiSegsF_nil]
    | cons c rest =>
      have hlen : rest.length + 1 = (c :: rest).length := by simp
      obtain ⟨g₁, rfl⟩ : ∃ g, f₁ = g + 1 := ⟨f₁ - 1, by simp at h1; omega⟩
      obtain ⟨g₂, rfl⟩ : ∃ g, f₂ = g + 1 := ⟨f₂ - 1, by simp at h2; omega⟩
      rw [wikiSegsF_cons, wikiSegsF_cons]
      by_cases hbr : c = '[' ∧ rest.head? = some '['
      · rw [if_pos hbr, if_pos hbr]
        cases hti : takeInner rest.tail with
        | none =>
          dsimp only
          rw [ih rest (by simp at hs; omega) g₁ g₂
            (by simp at h1; omega) (by simp at h2; omega)]
        | some p =>
          obtain ⟨i, r⟩ := p
          obtain ⟨hdec, hine, -⟩ := takeInner_eq_some hti
          have htl : rest.tail.length = i.length + 2 + r.length := by
            rw [hdec]; simp; omega
          have hrl : rest.length = rest.tail.length + 1 := by
            cases rest with
            | nil => simp at hbr
            | cons d t => simp
          have hil : 1 ≤ i.length := by
            cases i with
            | nil => exact absurd rfl hine
            | cons a b => simp
          dsimp only
          rw [ih r (by simp at hs; omega) g₁ g₂
            (by simp at h1; omega) (by simp at h2; omega)]
      · rw [if_neg hbr, if_neg hbr,
          ih rest (by simp at hs; omega) g₁ g₂
            (by simp at h1; omega) (by simp at h2; omega)]

lemma wikiSegs_nil : wikiSegs [] = [] := rfl

/-- Scanner equation: a span match. -/
lemma wikiSegs_span {rest i r : Str} (h : takeInner rest = some (i, r)) :
    wikiSegs ('[' :: '[' :: rest) = .span i :: wikiSegs r := by
  obtain ⟨hdec, hine, -⟩ := takeInner_eq_some h
  have hil : 1 ≤ i.length := by
    cases i with
    | nil => exact absurd rfl hine
    | cons a b => simp
  have hrl : rest.length = i.length + 2 + r.length := by rw [hdec]; simp; omega
  show wikiSegsF (rest.length + 1 + 1) ('[' :: '[' :: rest) = _
  rw [wikiSegsF_cons]
  dsimp only [List.head?_cons, List.tail_cons]
  rw [if_pos ⟨rfl, rfl⟩, h]
  dsimp only
  rw [wikiSegsF_fuel (rest.length + 1) r (by omega) (rest.length + 1) r.length
    (by omega) le_rfl]
  rfl

/-- Scanner equation: `[[` with no closing match copies one `[`. -/
lemma wikiSegs_fail {rest : Str} (h : takeInner rest = none) :
    wikiSegs ('[' :: '[' :: rest) = .lit '[' :: wikiSegs ('[' :: rest) := by
  show wikiSegsF (rest.length + 1 + 1) ('[' :: '[' :: rest) = _
  rw [wikiSegsF_cons]
  dsimp only [List.head?_cons, List.tail_cons]
  rw [if_pos ⟨rfl, rfl⟩, h]
  rfl

/-- Scanner equation: any position not opening a `[[` copies its character. -/
lemma wikiSegs_copy {c : Char} {rest : Str}
    (h : ¬(c = '[' ∧ rest.head? = some '[')) :
    wikiSegs (c :: rest) = .lit c :: wikiSegs rest := by
  show wikiSegsF (rest.length + 1) (c :: rest) = _
  rw [wikiSegsF_cons, if_neg h]
  rfl

/-- Concatenated source text of a token list. -/
def renderSegs : List Seg → Str
  | [] => []
  | sg :: t => renderSeg sg ++ renderSegs t

lemma renderSegs_wikiSegs : ∀ (n : Nat) (s : Str), s.length ≤ n →
    renderSegs (wikiSegs s) = s := by
  intro n
  induction n with
  | zero =>
    intro s hs
    have hnil : s = [] := List.eq_nil_of_length_eq_zero (Nat.le_zero.mp hs)
    subst hnil
    rfl
  | succ n ih =>
    intro s hs
    cases s with
    | nil => rfl
    | cons c rest =>
      by_cases hbr : c = '[' ∧ rest.head? = some '['
      · obtain ⟨rfl, hh⟩ := hbr
        obtain ⟨t, rfl⟩ : ∃ t, rest = '[' :: t := by
          cases rest with
          | nil => simp at hh
          | cons d u =>
            have hd : d = '[' := by simpa using hh
            exact ⟨u, by rw [hd]⟩
        cases hti : takeInner t with
        | some p =>
          obtain ⟨i, r⟩ := p
          obtain ⟨hdec, hine, -⟩ := takeInner_eq_some hti
          have hil : 1 ≤ i.length := by
            cases i with
            | nil => exact absurd rfl hine
            | cons a b => simp
          rw [wikiSegs_span hti]
          show renderSeg (.span i) ++ renderSegs (wikiSegs r) = _
          rw [ih r (by rw [hdec] at hs; simp at hs; omega), hdec]
          simp [renderSeg, str]
        | none =>
          rw [wikiSegs_fail hti]
          show '[' :: renderSegs (wikiSegs ('[' :: t)) = _
          rw [ih ('[' :: t) (by simp at hs ⊢; omega)]
      · rw [wikiSegs_copy hbr]
        show c :: renderSegs (wikiSegs rest) = _
        rw [ih rest (by simp at hs; omega)]

/-- The scanner's tokens spell the text back out. -/
lemma renderSegs_scan (s : Str) : renderSegs (wikiSegs s) = s :=
  renderSegs_wikiSegs s.length s le_rfl

lemma mem_wikiInners {s : Str} {i : Str} :
    i ∈ wikiInners s ↔ Seg.span i ∈ wikiSegs s := by
  unfold wikiInners
  rw [List.mem_filterMap]
  constructor
  · rintro ⟨sg, hsg, hf⟩
    cases sg with
    | lit c => simp at hf
    | span j =>
      have : j = i := by simpa using hf
      exact this ▸ hsg
  · intro h
    exact ⟨.span i, h, rfl⟩

/-- The last character surviving a Python `strip` is not whitespace. -/
lemma pyStrip_last {l : Str} : ∀ c, (pyStrip l).getLast? = some c →
    pyWhitespace c = false := by
  intro c hc
  unfold pyStrip at hc
  have hne := getLast?_ne_nil hc
  rw [List.getLast?_eq_getLast _ hne, Option.some_inj] at hc
  have hlast := List.rdropWhile_last_not pyWhitespace
    (l.dropWhile pyWhitespace) hne
  rw [hc] at hlast
  simpa using hlast

lemma pyStrip_idem (l : Str) : pyStrip (pyStrip l) = pyStrip l :=
  pyStrip_id (fun c hc => pyStrip_head c hc) (fun c hc => pyStrip_last c hc)

lemma mem_of_takeWhile {p : Char → Bool} {l : Str} :
    ∀ c ∈ l.takeWhile p, c ∈ l := by
  intro c hc
  exact ( List.takeWhile_prefix p).mem hc

/-- Splitting a list at the first occurrence of a marker character. -/
lemma marker_split {m : Char} : ∀ {l : Str}, m ∈ l →
    l = l.takeWhile (fun c => c ≠ m) ++
      m :: (l.dropWhile (fun c => c ≠ m)).tail ∧
    l.dropWhile (fun c => c ≠ m) =
      m :: (l.dropWhile (fun c => c ≠ m)).tail ∧
    m ∉ l.takeWhile (fun c => c ≠ m) := by
  intro l
  induction l with
  | nil => intro h; simp at h
  | cons c t ih =>
    intro hm
    by_cases hc : c = m
    · subst hc
      rw [List.takeWhile_cons, List.dropWhile_cons]
      simp
    · have hmt : m ∈ t := by
        rcases List.mem_cons.mp hm with h | h
        · exact absurd h.symm hc
        · exact h
      obtain ⟨ih1, ih2, ih3⟩ := ih hmt
      rw [List.takeWhile_cons, List.dropWhile_cons]
      have hpc : (decide (c ≠ m)) = true := by simp [hc]
      rw [hpc]
      refine ⟨?_, ?_, ?_⟩
      · simp only [if_pos rfl, List.cons_append]
        exact congrArg (c :: ·) (by rw [ih2] at ih1 ⊢; exact ih1)
      · exact ih2
      · simp only [if_pos rfl]
        intro hmem
        rcases List.mem_cons.mp hmem with h | h
        · exact hc h.symm
        · exact ih3 h

lemma splitAlias_no_bar {X : Str} (h : '|' ∉ X) :
    splitAlias X = (pyStrip X, none) := by
  unfold splitAlias
  rw [if_neg h]

lemma splitAlias_bar {X a : Str} (h : '|' ∉ X) :
    splitAlias (X ++ '|' :: a) = (pyStrip X, some (pyStrip a)) := by
  have hmem : '|' ∈ X ++ '|' :: a := List.mem_append_right X (List.mem_cons_self _ _)
  have hw := takeWhile_append_marker (p := fun c => decide (c ≠ '|'))
    (m := '|') (by simp) X a (by intro c hc; simp; rintro rfl; exact h hc)
  unfold splitAlias
  rw [if_pos hmem, hw.1, hw.2]
  simp

lemma splitSuffix_plain {X : Str} (h1 : '#' ∉ X) (h2 : '^' ∉ X) :
    splitSuffix X = (pyStrip X, []) := by
  unfold splitSuffix
  rw [if_neg h1, if_neg h2]

lemma splitSuffix_hash {X u : Str} (h : '#' ∉ X) :
    splitSuffix (X ++ '#' :: u) = (pyStrip X, '#' :: u) := by
  have hmem : '#' ∈ X ++ '#' :: u := List.mem_append_right X (List.mem_cons_self _ _)
  have hw := takeWhile_append_marker (p := fun c => decide (c ≠ '#'))
    (m := '#') (by simp) X u (by intro c hc; simp; rintro rfl; exact h hc)
  unfold splitSuffix
  rw [if_pos hmem, hw.1, hw.2]
  simp

lemma splitSuffix_caret {X u : Str} (h1 : '#' ∉ X) (h2 : '#' ∉ u) (h3 : '^' ∉ X) :
    splitSuffix (X ++ '^' :: u) = (pyStrip X, '^' :: u) := by
  have hnh : '#' ∉ X ++ '^' :: u := by
    intro hmem
    rcases List.mem_append.mp hmem with h | h
    · exact h1 h
    · rcases List.mem_cons.mp h with h | h
      · exact absurd h (by decide)
      · exact h2 h
  have hmem : '^' ∈ X ++ '^' :: u := List.mem_append_right X (List.mem_cons_self _ _)
  have hw := takeWhile_append_marker (p := fun c => decide (c ≠ '^'))
    (m := '^') (by simp) X u (by intro c hc; simp; rintro rfl; exact h3 hc)
  unfold splitSuffix
  rw [if_neg hnh, if_pos hmem, hw.1, hw.2]
  simp

lemma sfCore_nil : sfCore ([] : Str) = none := by decide

/-- The inner text the forward rewrite leaves inside a span, for spans whose
base canonicalizes deterministically (the `hit` test then does not depend on
the random token). -/
def fwdInner (oldC newC : Str) (inner : Str) : Str :=
  let ta := splitAlias (pyStrip inner)
  let bs := splitSuffix ta.1
  let target' := if sfCore bs.1 = some oldC then newC ++ bs.2 else ta.1
  match ta.2 with
  | some a => target' ++ '|' :: a
  | none => target'

/-- A span inner text on which `old → new` rewriting round-trips: it is
already in the normalized spelling the replacer re-emits, its base
canonicalizes deterministically and not to the new name, and when it hits
the old name its target is spelled exactly as the canonical old name plus
suffix. -/
def innerOk (oldC newC : Str) (inner : Str) : Prop :=
  pyStrip inner = inner ∧
  inner = (splitAlias inner).1 ++ (match (splitAlias inner).2 with
    | some a => '|' :: a
    | none => []) ∧
  (sfCore (splitSuffix (splitAlias inner).1).1).isSome = true ∧
  sfCore (splitSuffix (splitAlias inner).1).1 ≠ some newC ∧
  (sfCore (splitSuffix (splitAlias inner).1).1 = some oldC →
    (splitAlias inner).1 = oldC ++ (splitSuffix (splitAlias inner).1).2)

/-- A canonical name the rewriter can splice into spans: nonempty, already
stripped, a fixed point of deterministic canonicalization, and free of the
wikilink metacharacters. -/
def CanonOk (c : Str) : Prop :=
  c ≠ [] ∧ pyStrip c = c ∧ sfCore c = some c ∧
  ∀ ch ∈ c, ch ≠ ']' ∧ ch ≠ '|' ∧ ch ≠ '#' ∧ ch ≠ '^'

/-- One rewritten token. -/
def fwdSeg (oldC newC : Str) : Seg → Seg
  | .lit c => .lit c
  | .span i => .span (fwdInner oldC newC i)

/-- The text the forward rewrite emits for a token list. -/
def fwdSegsStr (oldC newC : Str) : List Seg → Str
  | [] => []
  | .lit c :: t => c :: fwdSegsStr oldC newC t
  | .span i :: t =>
    '[' :: '[' :: (fwdInner oldC newC i ++ ']' :: ']' :: fwdSegsStr oldC newC t)

lemma innerOk_ne_nil {oldC newC i : Str} (hok : innerOk oldC newC i) : i ≠ [] := by
  obtain ⟨-, -, h3, -, -⟩ := hok
  intro hnil
  subst hnil
  exact absurd h3 (by decide)

/-- Structural consequences of `innerOk`: the target part is nonempty,
stripped, bar-free, and its base canonicalizes deterministically. -/
lemma innerOk_struct {oldC newC i : Str} (hok : innerOk oldC newC i) :
    ∃ cb, sfCore (splitSuffix (splitAlias i).1).1 = some cb ∧
      (splitAlias i).1 ≠ [] ∧
      pyStrip (splitAlias i).1 = (splitAlias i).1 ∧
      '|' ∉ (splitAlias i).1 ∧
      cb ≠ newC ∧
      (cb = oldC → (splitAlias i).1 = oldC ++ (splitSuffix (splitAlias i).1).2) := by
  obtain ⟨h1, h2, h3, h4, h5⟩ := hok
  obtain ⟨cb, hcb⟩ := Option.isSome_iff_exists.mp h3
  refine ⟨cb, hcb, ?_, ?_, ?_, ?_, ?_⟩
  · intro hT
    rw [hT] at hcb
    rw [show splitSuffix ([] : Str) = ([], []) from by decide] at hcb
    rw [sfCore_nil] at hcb
    exact Option.noConfusion hcb
  · by_cases hbar : '|' ∈ i
    · unfold splitAlias
      rw [if_pos hbar]
      exact pyStrip_idem _
    · rw [splitAlias_no_bar hbar]
      exact pyStrip_idem _
  · by_cases hbar : '|' ∈ i
    · intro hmem
      unfold splitAlias at hmem
      rw [if_pos hbar] at hmem
      have hmem2 : '|' ∈ i.takeWhile (fun c => c ≠ '|') := pyStrip_subset _ hmem
      have := List.mem_takeWhile_imp hmem2
      exact absurd this (by simp)
    · rw [splitAlias_no_bar hbar]
      intro hmem
      exact hbar (pyStrip_subset _ hmem)
  · intro hcbn
    exact h4 (hcbn ▸ hcb)
  · intro hcbo
    exact h5 (hcbo ▸ hcb)

/-- Case analysis on the suffix split of a bar-free target. -/
lemma splitSuffix_shape (T : Str) :
    (splitSuffix T = (pyStrip T, []) ∧ '#' ∉ T ∧ '^' ∉ T) ∨
    (∃ W U, T = W ++ '#' :: U ∧ '#' ∉ W ∧
      splitSuffix T = (pyStrip W, '#' :: U)) ∨
    (∃ W U, T = W ++ '^' :: U ∧ '#' ∉ W ∧ '#' ∉ U ∧ '^' ∉ W ∧
      splitSuffix T = (pyStrip W, '^' :: U)) := by
  by_cases hH : '#' ∈ T
  · obtain ⟨hsplit, hdrop, hfree⟩ := marker_split hH
    refine Or.inr (Or.inl ⟨T.takeWhile (fun c => c ≠ '#'),
      (T.dropWhile (fun c => c ≠ '#')).tail, hsplit, hfree, ?_⟩)
    unfold splitSuffix
    rw [if_pos hH]
  · by_cases hC : '^' ∈ T
    · obtain ⟨hsplit, hdrop, hfree⟩ := marker_split hC
      have hU : ∀ c ∈ (T.dropWhile (fun c => c ≠ '^')).tail, c ∈ T := by
        intro c hc
        exact (List.dropWhile_suffix _).mem (List.mem_of_mem_tail hc)
      refine Or.inr (Or.inr ⟨T.takeWhile (fun c => c ≠ '^'),
        (T.dropWhile (fun c => c ≠ '^')).tail, hsplit, ?_, ?_, hfree, ?_⟩)
      · intro hmem
        exact hH (mem_of_takeWhile _ hmem)
      · intro hmem
        exact hH (hU _ hmem)
      · unfold splitSuffix
        rw [if_neg hH, if_pos hC]
    · exact Or.inl ⟨splitSuffix_plain hH hC, hH, hC⟩

/-- Characters of the suffix part are the separator or characters of the
target. -/
lemma splitSuffix_snd_mem {T : Str} : ∀ c ∈ (splitSuffix T).2, c ∈ T := by
  rcases splitSuffix_shape T with ⟨heq, -, -⟩ | ⟨W, U, hTeq, -, heq⟩ |
    ⟨W, U, hTeq, -, -, -, heq⟩
  · rw [heq]
    intro c hc
    simp at hc
  · rw [heq]
    intro c hc
    rw [hTeq]
    exact List.mem_append_right W hc
  · rw [heq]
    intro c hc
    rw [hTeq]
    exact List.mem_append_right W hc

lemma splitSuffix_fst_subset {T : Str} : ∀ c ∈ (splitSuffix T).1, c ∈ T := by
  rcases splitSuffix_shape T with ⟨heq, -, -⟩ | ⟨W, U, hTeq, -, heq⟩ |
    ⟨W, U, hTeq, -, -, -, heq⟩
  · rw [heq]
    intro c hc
    exact pyStrip_subset _ hc
  · rw [heq]
    intro c hc
    rw [hTeq]
    exact List.mem_append_left _ (pyStrip_subset _ hc)
  · rw [heq]
    intro c hc
    rw [hTeq]
    exact List.mem_append_left _ (pyStrip_subset _ hc)

/-- The forward span inner text is nonempty and free of `]`. -/
lemma fwdInner_props {oldC newC i : Str} (hok : innerOk oldC newC i)
    (hCan : CanonOk newC) (hrb : ∀ c ∈ i, c ≠ ']') :
    fwdInner oldC newC i ≠ [] ∧ ∀ c ∈ fwdInner oldC newC i, c ≠ ']' := by
  obtain ⟨hnCne, -, -, hnCch⟩ := hCan
  obtain ⟨cb, hcb, hTne, hTstrip, hTbar, hcbn, hcbo⟩ := innerOk_struct hok
  obtain ⟨h1, h2, h3, h4, h5⟩ := hok
  have hTmem : ∀ c ∈ (splitAlias i).1, c ∈ i := by
    intro c hc
    rw [h2]
    exact List.mem_append_left _ hc
  have hSmem : ∀ c ∈ (splitSuffix (splitAlias i).1).2, c ≠ ']' := by
    intro c hc
    exact hrb c (hTmem c (splitSuffix_snd_mem c hc))
  have htgt : (if sfCore (splitSuffix (splitAlias i).1).1 = some oldC
      then newC ++ (splitSuffix (splitAlias i).1).2
      else (splitAlias i).1) ≠ [] ∧
      ∀ c ∈ (if sfCore (splitSuffix (splitAlias i).1).1 = some oldC
      then newC ++ (splitSuffix (splitAlias i).1).2
      else (splitAlias i).1), c ≠ ']' := by
    by_cases hhit : sfCore (splitSuffix (splitAlias i).1).1 = some oldC
    · rw [if_pos hhit]
      refine ⟨by simp [hnCne], ?_⟩
      intro c hc
      rcases List.mem_append.mp hc with hcn | hcs
      · exact (hnCch c hcn).1
      · exact hSmem c hcs
    · rw [if_neg hhit]
      exact ⟨hTne, fun c hc => hrb c (hTmem c hc)⟩
  unfold fwdInner
  rw [h1]
  dsimp only
  cases hA : (splitAlias i).2 with
  | some a =>
    dsimp only
    constructor
    · simp
    · intro c hc
      rcases List.mem_append.mp hc with hct | hca
      · exact htgt.2 c hct
      · rcases List.mem_cons.mp hca with hcb' | hca
        · exact hcb' ▸ (by decide)
        · refine hrb c ?_
          rw [h2, hA]
          exact List.mem_append_right _ (List.mem_cons_of_mem _ hca)
  | none =>
    dsimp only
    exact htgt

/-- The replacer's output on an `innerOk` span, for every random token. -/
lemma replSpan_fwd_fst {oldC newC i : Str} (u : Str) (hok : innerOk oldC newC i) :
    (replSpan u oldC newC i).1 =
      '[' :: '[' :: (fwdInner oldC newC i ++ [']', ']']) := by
  have hine := innerOk_ne_nil hok
  obtain ⟨cb, hcb, -, -, -, -, -⟩ := innerOk_struct hok
  obtain ⟨h1, h2, h3, h4, h5⟩ := hok
  unfold replSpan fwdInner
  rw [h1]
  dsimp only
  rw [if_neg hine]
  rw [safe_filename_of_sfCore hcb u, hcb]
  by_cases hco : cb = oldC
  · rw [if_pos hco, if_pos (by rw [hco])]
    cases hA : (splitAlias i).2 with
    | some a => simp [str]
    | none => simp [str]
  · rw [if_neg hco, if_neg (by simpa using hco)]
    cases hA : (splitAlias i).2 with
    | some a => simp [str]
    | none => simp [str]

lemma spanConsumes_false_of {oldC newC i : Str} (hok : innerOk oldC newC i) :
    spanConsumes i = false := by
  have hine := innerOk_ne_nil hok
  obtain ⟨cb, hcb, -, -, -, -, -⟩ := innerOk_struct hok
  obtain ⟨h1, -, -, -, -⟩ := hok
  unfold spanConsumes
  rw [h1]
  dsimp only
  rw [if_neg hine, hcb]
  simp

/-- The forward rewrite over a token list is the per-token rewrite,
independently of the token supply and counter. -/
lemma rewriteAux_fwd (us : Nat → Str) (oldC newC : Str) :
    ∀ (segs : List Seg) (k : Nat),
    (∀ i, Seg.span i ∈ segs → innerOk oldC newC i) →
    (rewriteAux us oldC newC k segs).1 = fwdSegsStr oldC newC segs := by
  intro segs
  induction segs with
  | nil => intro k _; rfl
  | cons sg t ih =>
    intro k hok
    cases sg with
    | lit c =>
      show (c :: (rewriteAux us oldC newC k t).1) = _
      rw [ih k (fun i hi => hok i (List.mem_cons_of_mem _ hi))]
      rfl
    | span i =>
      have hoki := hok i (List.mem_cons_self _ _)
      show ((replSpan (us k) oldC newC i).1 ++
        (rewriteAux us oldC newC (if spanConsumes i then k + 1 else k) t).1) = _
      rw [replSpan_fwd_fst (us k) hoki,
        ih _ (fun j hj => hok j (List.mem_cons_of_mem _ hj))]
      show _ = '[' :: '[' :: (fwdInner oldC newC i ++ ']' :: ']' :: fwdSegsStr oldC newC t)
      simp

/-- The rendering of a span token, written out. -/
lemma renderSegs_span_cons (i : Str) (t : List Seg) :
    renderSegs (.span i :: t) = '[' :: '[' :: (i ++ ']' :: ']' :: renderSegs t) := by
  show (str "[[" ++ i ++ str "]]") ++ renderSegs t = _
  simp [str]

/-- Rewriting does not change the first character of the text. -/
lemma fwdSegsStr_head (oldC newC : Str) : ∀ segs : List Seg,
    (fwdSegsStr oldC newC segs).head? = (renderSegs segs).head?
  | [] => rfl
  | .lit c :: t => rfl
  | .span i :: t => by rw [renderSegs_span_cons]; rfl

/-- No `]]` closer at the first `]` of the text (so a `[[` just before this
text cannot match). -/
def noCl (t : Str) : Prop := (t.dropWhile (fun c => c ≠ ']')).take 2 ≠ [']', ']']

lemma takeInner_none_of_noCl {t : Str} (h : noCl t) : takeInner t = none := by
  unfold takeInner
  dsimp only
  by_cases h1 : t.takeWhile (fun c => c ≠ ']') = []
  · rw [if_pos h1]
  · rw [if_neg h1, if_neg h]

lemma takeInner_none_of_head {t : Str} (h : t.head? = some ']') :
    takeInner t = none := by
  cases t with
  | nil => rfl
  | cons c u =>
    have hc : c = ']' := by simpa using h
    subst hc
    unfold takeInner
    dsimp only
    rw [if_pos (by rw [List.takeWhile_cons]; simp)]

lemma noCl_cons {c : Char} {t : Str} (hc : c ≠ ']') : noCl (c :: t) ↔ noCl t := by
  unfold noCl
  rw [List.dropWhile_cons, if_pos (by simp [hc])]

lemma noCl_rb_cons {t : Str} : noCl (']' :: t) ↔ t.head? ≠ some ']' := by
  unfold noCl
  rw [List.dropWhile_cons, if_neg (by simp)]
  cases t with
  | nil => simp
  | cons d u => simp [List.take]

lemma takeInner_none_cases {t : Str} (h : takeInner t = none) :
    t = [] ∨ t.head? = some ']' ∨ noCl t := by
  unfold takeInner at h
  dsimp only at h
  by_cases h1 : t.takeWhile (fun c => c ≠ ']') = []
  · cases t with
    | nil => exact Or.inl rfl
    | cons c u =>
      rw [List.takeWhile_cons] at h1
      by_cases hc : c = ']'
      · refine Or.inr (Or.inl ?_)
        rw [hc]
        rfl
      · rw [if_pos (by simp [hc])] at h1
        exact absurd h1 (by simp)
  · rw [if_neg h1] at h
    by_cases h2 : (t.dropWhile (fun c => c ≠ ']')).take 2 = [']', ']']
    · rw [if_pos h2] at h
      exact absurd h (by simp)
    · exact Or.inr (Or.inr h2)

/-- Rewriting preserves the absence of a closer at the first `]`: the
first `]` of the text lies in a literal token (a span would put `]]`
there), and rewriting keeps all literals and the head character of every
token. -/
lemma noCl_fwd (oldC newC : Str) : ∀ segs : List Seg,
    (∀ i, Seg.span i ∈ segs → ∀ c ∈ i, c ≠ ']') →
    noCl (renderSegs segs) → noCl (fwdSegsStr oldC newC segs) := by
  intro segs
  induction segs with
  | nil =>
    intro _ _
    show noCl ([] : Str)
    unfold noCl
    decide
  | cons sg t ih =>
    intro hok hcl
    cases sg with
    | lit c =>
      by_cases hc : c = ']'
      · subst hc
        have hcl' : (renderSegs t).head? ≠ some ']' := by
          rw [show renderSegs (.lit ']' :: t) = ']' :: renderSegs t from rfl,
            noCl_rb_cons] at hcl
          exact hcl
        show noCl (']' :: fwdSegsStr oldC newC t)
        rw [noCl_rb_cons, fwdSegsStr_head]
        exact hcl'
      · have hcl' : noCl (renderSegs t) := by
          rw [show renderSegs (.lit c :: t) = c :: renderSegs t from rfl,
            noCl_cons hc] at hcl
          exact hcl
        show noCl (c :: fwdSegsStr oldC newC t)
        rw [noCl_cons hc]
        exact ih (fun i hi => hok i (List.mem_cons_of_mem _ hi)) hcl'
    | span i =>
      exfalso
      have hrb := hok i (List.mem_cons_self _ _)
      rw [renderSegs_span_cons, noCl_cons (by decide), noCl_cons (by decide)] at hcl
      have hw := takeWhile_append_marker (p := fun c => decide (c ≠ ']'))
        (m := ']') (by simp) i (']' :: renderSegs t)
        (by intro c hc; simpa using hrb c hc)
      unfold noCl at hcl
      rw [hw.2] at hcl
      exact hcl (by simp [List.take])

/-- Spans produced by the scanner are nonempty and `]`-free. -/
lemma wikiSegs_rbFree : ∀ (n : Nat) (s : Str), s.length ≤ n →
    ∀ i, Seg.span i ∈ wikiSegs s → i ≠ [] ∧ ∀ c ∈ i, c ≠ ']' := by
  intro n
  induction n with
  | zero =>
    intro s hs i hi
    have hnil : s = [] := List.eq_nil_of_length_eq_zero (Nat.le_zero.mp hs)
    subst hnil
    rw [wikiSegs_nil] at hi
    simp at hi
  | succ n ih =>
    intro s hs i hi
    cases s with
    | nil =>
      rw [wikiSegs_nil] at hi
      simp at hi
    | cons c rest =>
      by_cases hbr : c = '[' ∧ rest.head? = some '['
      · obtain ⟨rfl, hh⟩ := hbr
        obtain ⟨t, rfl⟩ : ∃ t, rest = '[' :: t := by
          cases rest with
          | nil => simp at hh
          | cons d u =>
            have hd : d = '[' := by simpa using hh
            exact ⟨u, by rw [hd]⟩
        cases hti : takeInner t with
        | some p =>
          obtain ⟨j, r⟩ := p
          obtain ⟨hdec, hne, hnb⟩ := takeInner_eq_some hti
          have hjl : 1 ≤ j.length := by
            cases j with
            | nil => exact absurd rfl hne
            | cons a b => simp
          rw [wikiSegs_span hti] at hi
          rcases List.mem_cons.mp hi with hsp | hi
          · have hij : i = j := by
              injection hsp with h
            subst hij
            exact ⟨hne, hnb⟩
          · refine ih r ?_ i hi
            rw [hdec] at hs
            simp at hs
            omega
        | none =>
          rw [wikiSegs_fail hti] at hi
          rcases List.mem_cons.mp hi with hsp | hi
          · exact absurd hsp (by simp)
          · refine ih ('[' :: t) ?_ i hi
            simp at hs ⊢
            omega
      · rw [wikiSegs_copy hbr] at hi
        rcases List.mem_cons.mp hi with hsp | hi
        · exact absurd hsp (by simp)
        · refine ih rest ?_ i hi
          simp at hs
          omega

lemma wikiSegs_rbFree' (s : Str) :
    ∀ i, Seg.span i ∈ wikiSegs s → i ≠ [] ∧ ∀ c ∈ i, c ≠ ']' :=
  wikiSegs_rbFree s.length s le_rfl

/-- A lone `[` before a non-matching tail scans as a literal. -/
lemma wikiSegs_open_cons {t : Str} (h : takeInner t = none) :
    wikiSegs ('[' :: t) = .lit '[' :: wikiSegs t := by
  cases t with
  | nil => rfl
  | cons d u =>
    by_cases hd : d = '['
    · subst hd
      have hu : takeInner u = none := by
        cases hti2 : takeInner u with
        | none => rfl
        | some p =>
          obtain ⟨i, r⟩ := p
          rw [takeInner_cons_some (by decide) hti2] at h
          exact absurd h (by simp)
      exact wikiSegs_fail hu
    · exact wikiSegs_copy (by simp [hd])

/-- A failed match stays failed after rewriting. -/
lemma takeInner_fwd_none (oldC newC : Str) {t : Str}
    (h : takeInner t = none) :
    takeInner (fwdSegsStr oldC newC (wikiSegs t)) = none := by
  rcases takeInner_none_cases h with rfl | hh | hcl
  · show takeInner ([] : Str) = none
    decide
  · exact takeInner_none_of_head (by rw [fwdSegsStr_head, renderSegs_scan]; exact hh)
  · refine takeInner_none_of_noCl (noCl_fwd oldC newC _
      (fun i hi => (wikiSegs_rbFree' t i hi).2) ?_)
    rw [renderSegs_scan]
    exact hcl

/-- Scanning the rewritten text yields the rewritten tokens. -/
lemma wikiSegs_fwd (oldC newC : Str) (hCan : CanonOk newC) :
    ∀ (n : Nat) (s : Str), s.length ≤ n →
    (∀ i, Seg.span i ∈ wikiSegs s → innerOk oldC newC i) →
    wikiSegs (fwdSegsStr oldC newC (wikiSegs s)) =
      (wikiSegs s).map (fwdSeg oldC newC) := by
  intro n
  induction n with
  | zero =>
    intro s hs _
    have hnil : s = [] := List.eq_nil_of_length_eq_zero (Nat.le_zero.mp hs)
    subst hnil
    rfl
  | succ n ih =>
    intro s hs hok
    cases s with
    | nil => rfl
    | cons c rest =>
      by_cases hbr : c = '[' ∧ rest.head? = some '['
      · obtain ⟨rfl, hh⟩ := hbr
        obtain ⟨t, rfl⟩ : ∃ t, rest = '[' :: t := by
          cases rest with
          | nil => simp at hh
          | cons d u =>
            have hd : d = '[' := by simpa using hh
            exact ⟨u, by rw [hd]⟩
        cases hti : takeInner t with
        | some p =>
          obtain ⟨i, r⟩ := p
          obtain ⟨hdec, hine, hirb⟩ := takeInner_eq_some hti
          have hil : 1 ≤ i.length := by
            cases i with
            | nil => exact absurd rfl hine
            | cons a b => simp
          have hoki : innerOk oldC newC i := by
            refine hok i ?_
            rw [wikiSegs_span hti]
            exact List.mem_cons_self _ _
          have hok' : ∀ j, Seg.span j ∈ wikiSegs r → innerOk oldC newC j := by
            intro j hj
            refine hok j ?_
            rw [wikiSegs_span hti]
            exact List.mem_cons_of_mem _ hj
          have hprops := fwdInner_props hoki hCan hirb
          rw [wikiSegs_span hti]
          show wikiSegs ('[' :: '[' :: (fwdInner oldC newC i ++
            ']' :: ']' :: fwdSegsStr oldC newC (wikiSegs r))) = _
          rw [wikiSegs_span (takeInner_span hprops.1 hprops.2)]
          rw [ih r (by rw [hdec] at hs; simp at hs; omega) hok']
          rfl
        | none =>
          have hok' : ∀ j, Seg.span j ∈ wikiSegs t → innerOk oldC newC j := by
            intro j hj
            refine hok j ?_
            rw [wikiSegs_fail hti, wikiSegs_open_cons hti]
            exact List.mem_cons_of_mem _ (List.mem_cons_of_mem _ hj)
          rw [wikiSegs_fail hti, wikiSegs_open_cons hti]
          show wikiSegs ('[' :: '[' :: fwdSegsStr oldC newC (wikiSegs t)) = _
          rw [wikiSegs_fail (takeInner_fwd_none oldC newC hti),
            wikiSegs_open_cons (takeInner_fwd_none oldC newC hti)]
          rw [ih t (by simp at hs; omega) hok']
          rfl
      · rw [wikiSegs_copy hbr]
        show wikiSegs (c :: fwdSegsStr oldC newC (wikiSegs rest)) = _
        have hhead : (fwdSegsStr oldC newC (wikiSegs rest)).head? = rest.head? := by
          rw [fwdSegsStr_head, renderSegs_scan]
        have hok' : ∀ j, Seg.span j ∈ wikiSegs rest → innerOk oldC newC j := by
          intro j hj
          refine hok j ?_
          rw [wikiSegs_copy hbr]
          exact List.mem_cons_of_mem _ hj
        rw [wikiSegs_copy (by
          intro hcontra
          exact hbr ⟨hcontra.1, hhead ▸ hcontra.2⟩)]
        rw [ih rest (by simp at hs; omega) hok']
        rfl

lemma splitAlias_snd_strip {raw a : Str} (h : (splitAlias raw).2 = some a) :
    pyStrip a = a := by
  by_cases hbar : '|' ∈ raw
  · unfold splitAlias at h
    rw [if_pos hbar] at h
    have ha : a = pyStrip ((raw.dropWhile (fun c => c ≠ '|')).tail) := by
      simpa using h.symm
    rw [ha]
    exact pyStrip_idem _
  · rw [splitAlias_no_bar hbar] at h
    exact absurd h (by simp)

lemma strip_head_last {T : Str} (hT : pyStrip T = T) :
    (∀ c, T.head? = some c → pyWhitespace c = false) ∧
    (∀ c, T.getLast? = some c → pyWhitespace c = false) := by
  constructor
  · intro c hc
    exact pyStrip_head c (by rw [hT]; exact hc)
  · intro c hc
    exact pyStrip_last c (by rw [hT]; exact hc)

/-- The suffix part of a stripped target does not end in whitespace. -/
lemma splitSuffix_snd_last {T : Str} (hT : pyStrip T = T) :
    ∀ c, ((splitSuffix T).2).getLast? = some c → pyWhitespace c = false := by
  rcases splitSuffix_shape T with ⟨heq, -, -⟩ | ⟨W, U, hTeq, -, heq⟩ |
    ⟨W, U, hTeq, -, -, -, heq⟩
  · rw [heq]
    intro c hc
    simp at hc
  · rw [heq]
    dsimp only
    cases U with
    | nil =>
      intro c hc
      have hcs : c = '#' := by simpa using hc.symm
      subst hcs
      decide
    | cons u0 ut =>
      intro c hc
      have hlastT : T.getLast? = some c := by
        rw [hTeq, List.getLast?_append_of_ne_nil W (by simp)]
        exact hc
      exact (strip_head_last hT).2 c hlastT
  · rw [heq]
    dsimp only
    cases U with
    | nil =>
      intro c hc
      have hcs : c = '^' := by simpa using hc.symm
      subst hcs
      decide
    | cons u0 ut =>
      intro c hc
      have hlastT : T.getLast? = some c := by
        rw [hTeq, List.getLast?_append_of_ne_nil W (by simp)]
        exact hc
      exact (strip_head_last hT).2 c hlastT

/-- The canonical new name with a suffix attached is already stripped. -/
lemma strip_newC_suffix {newC : Str} (hCan : CanonOk newC) (T : Str)
    (hT : pyStrip T = T) :
    pyStrip (newC ++ (splitSuffix T).2) = newC ++ (splitSuffix T).2 := by
  obtain ⟨hne, hstrip, -, -⟩ := hCan
  refine pyStrip_id ?_ ?_
  · intro c hc
    have hh : newC.head? = some c := by
      cases newC with
      | nil => exact absurd rfl hne
      | cons d t => simpa using hc
    exact (strip_head_last hstrip).1 c hh
  · intro c hc
    cases hS : (splitSuffix T).2 with
    | nil =>
      rw [hS, List.append_nil] at hc
      exact (strip_head_last hstrip).2 c hc
    | cons s0 st =>
      rw [hS, List.getLast?_append_of_ne_nil newC (by simp)] at hc
      refine splitSuffix_snd_last hT c ?_
      rw [hS]
      exact hc

/-- Splitting the suffix off `newC ++ suffix` recovers the pieces. -/
lemma splitSuffix_newC {newC : Str} (hCan : CanonOk newC) (T : Str) :
    splitSuffix (newC ++ (splitSuffix T).2) = (newC, (splitSuffix T).2) := by
  obtain ⟨hne, hstrip, -, hch⟩ := hCan
  have hnH : '#' ∉ newC := fun hmem => (hch _ hmem).2.2.1 rfl
  have hnC : '^' ∉ newC := fun hmem => (hch _ hmem).2.2.2 rfl
  rcases splitSuffix_shape T with ⟨heq, -, -⟩ | ⟨W, U, hTeq, -, heq⟩ |
    ⟨W, U, hTeq, -, hUH, -, heq⟩
  · rw [heq]
    dsimp only
    rw [List.append_nil, splitSuffix_plain hnH hnC, hstrip]
  · rw [heq]
    dsimp only
    rw [splitSuffix_hash hnH, hstrip]
  · rw [heq]
    dsimp only
    rw [splitSuffix_caret hnH hUH hnC, hstrip]

/-- A span whose base misses the old name is left untouched by the forward
rewrite. -/
lemma fwdInner_nohit {oldC newC i : Str} (hok : innerOk oldC newC i)
    (hmiss : sfCore (splitSuffix (splitAlias i).1).1 ≠ some oldC) :
    fwdInner oldC newC i = i := by
  obtain ⟨h1, h2, -, -, -⟩ := hok
  unfold fwdInner
  rw [h1]
  dsimp only
  rw [if_neg hmiss]
  cases hA : (splitAlias i).2 with
  | some a =>
    dsimp only
    rw [hA] at h2
    dsimp only at h2
    exact h2.symm
  | none =>
    dsimp only
    rw [hA] at h2
    dsimp only at h2
    rw [List.append_nil] at h2
    exact h2.symm

/-- Rewriting a span back restores it exactly and consumes no token. -/
lemma replSpan_roundtrip (v : Str) {oldC newC i : Str}
    (hCan : CanonOk newC) (hok : innerOk oldC newC i) :
    (replSpan v newC oldC (fwdInner oldC newC i)).1 =
      '[' :: '[' :: (i ++ [']', ']']) ∧
    spanConsumes (fwdInner oldC newC i) = false := by
  obtain ⟨cb, hcb, hTne, hTstrip, hTbar, hcbn, hcbo⟩ := innerOk_struct hok
  by_cases hhit : cb = oldC
  case neg =>
    have hmiss : sfCore (splitSuffix (splitAlias i).1).1 ≠ some oldC := by
      rw [hcb]
      intro hctr
      exact hhit (by simpa using hctr)
    have hmiss' : sfCore (splitSuffix (splitAlias i).1).1 ≠ some newC := by
      rw [hcb]
      intro hctr
      exact hcbn (by simpa using hctr)
    obtain ⟨h1, h2, h3, h4, h5⟩ := hok
    have hok' : innerOk newC oldC i := by
      refine ⟨h1, h2, h3, hmiss, ?_⟩
      intro hco
      exact absurd hco hmiss'
    rw [fwdInner_nohit ⟨h1, h2, h3, h4, h5⟩ hmiss]
    constructor
    · rw [replSpan_fwd_fst v hok', fwdInner_nohit hok' hmiss']
    · exact spanConsumes_false_of ⟨h1, h2, h3, h4, h5⟩
  case pos =>
    rw [hhit] at hcb
    have hT5 := hcbo hhit
    obtain ⟨h1, h2, h3, h4, h5⟩ := hok
    have hXne : newC ++ (splitSuffix (splitAlias i).1).2 ≠ [] := by
      intro hctr
      exact hCan.1 (List.append_eq_nil.mp hctr).1
    have hstripW := strip_newC_suffix hCan (splitAlias i).1 hTstrip
    have hbarW : '|' ∉ newC ++ (splitSuffix (splitAlias i).1).2 := by
      intro hmem
      rcases List.mem_append.mp hmem with hm | hm
      · exact ((hCan.2.2.2 _ hm).2.1) rfl
      · exact hTbar (splitSuffix_snd_mem _ hm)
    cases hA : (splitAlias i).2 with
    | some a =>
      have hstripa := splitAlias_snd_strip hA
      rw [hA] at h2
      dsimp only at h2
      have hfwd : fwdInner oldC newC i =
          (newC ++ (splitSuffix (splitAlias i).1).2) ++ '|' :: a := by
        unfold fwdInner
        rw [h1]
        dsimp only
        rw [if_pos hcb, hA]
      have hstripX : pyStrip ((newC ++ (splitSuffix (splitAlias i).1).2) ++ '|' :: a) =
          (newC ++ (splitSuffix (splitAlias i).1).2) ++ '|' :: a := by
        refine pyStrip_id ?_ ?_
        · intro c hc
          have hh : (newC ++ (splitSuffix (splitAlias i).1).2).head? = some c := by
            cases hW : newC ++ (splitSuffix (splitAlias i).1).2 with
            | nil => exact absurd hW hXne
            | cons w0 wt =>
              rw [hW] at hc
              simpa using hc
          exact (strip_head_last hstripW).1 c hh
        · intro c hc
          rw [List.getLast?_append_of_ne_nil _ (by simp)] at hc
          cases ha : a with
          | nil =>
            rw [ha] at hc
            have hcs : c = '|' := by simpa using hc.symm
            subst hcs
            decide
          | cons a0 at' =>
            have hla : a.getLast? = some c := by
              rw [ha]
              rw [ha, List.getLast?_cons_cons] at hc
              exact hc
            exact (strip_head_last hstripa).2 c hla
      have hX : splitAlias ((newC ++ (splitSuffix (splitAlias i).1).2) ++ '|' :: a) =
          (newC ++ (splitSuffix (splitAlias i).1).2, some a) := by
        rw [splitAlias_bar hbarW, hstripW, hstripa]
      rw [hfwd]
      constructor
      · unfold replSpan
        rw [hstripX]
        dsimp only
        rw [if_neg (by simp), hX]
        dsimp only
        rw [splitSuffix_newC hCan (splitAlias i).1]
        dsimp only
        rw [safe_filename_of_sfCore hCan.2.2.1 v, if_pos rfl, ← hT5]
        conv_rhs => rw [h2]
        simp [str]
      · unfold spanConsumes
        rw [hstripX]
        dsimp only
        rw [if_neg (by simp), hX]
        dsimp only
        rw [splitSuffix_newC hCan (splitAlias i).1]
        dsimp only
        rw [hCan.2.2.1]
        simp
    | none =>
      rw [hA] at h2
      dsimp only at h2
      rw [List.append_nil] at h2
      have hfwd : fwdInner oldC newC i =
          newC ++ (splitSuffix (splitAlias i).1).2 := by
        unfold fwdInner
        rw [h1]
        dsimp only
        rw [if_pos hcb, hA]
      have hX : splitAlias (newC ++ (splitSuffix (splitAlias i).1).2) =
          (newC ++ (splitSuffix (splitAlias i).1).2, none) := by
        rw [splitAlias_no_bar hbarW, hstripW]
      rw [hfwd]
      constructor
      · unfold replSpan
        rw [hstripW]
        dsimp only
        rw [if_neg hXne, hX]
        dsimp only
        rw [splitSuffix_newC hCan (splitAlias i).1]
        dsimp only
        rw [safe_filename_of_sfCore hCan.2.2.1 v, if_pos rfl, ← hT5]
        conv_rhs => rw [h2]
        simp [str]
      · unfold spanConsumes
        rw [hstripW]
        dsimp only
        rw [if_neg hXne, hX]
        dsimp only
        rw [splitSuffix_newC hCan (splitAlias i).1]
        dsimp only
        rw [hCan.2.2.1]
        simp

/-- The backward rewrite over the forward tokens restores the source text. -/
lemma rewriteAux_bwd (vs : Nat → Str) (oldC newC : Str) (hCan : CanonOk newC) :
    ∀ (segs : List Seg) (k : Nat),
    (∀ i, Seg.span i ∈ segs → innerOk oldC newC i) →
    (rewriteAux vs newC oldC k (segs.map (fwdSeg oldC newC))).1 = renderSegs segs := by
  intro segs
  induction segs with
  | nil => intro k _; rfl
  | cons sg t ih =>
    intro k hok
    cases sg with
    | lit c =>
      show (c :: (rewriteAux vs newC oldC k (t.map (fwdSeg oldC newC))).1) = _
      rw [ih k (fun i hi => hok i (List.mem_cons_of_mem _ hi))]
      rfl
    | span i =>
      have hoki := hok i (List.mem_cons_self _ _)
      obtain ⟨hrt, hcons⟩ := replSpan_roundtrip (vs k) hCan hoki
      show ((replSpan (vs k) newC oldC (fwdInner oldC newC i)).1 ++
        (rewriteAux vs newC oldC
          (if spanConsumes (fwdInner oldC newC i) then k + 1 else k)
          (t.map (fwdSeg oldC newC))).1) = _
      rw [hrt, ih _ (fun j hj => hok j (List.mem_cons_of_mem _ hj))]
      rw [renderSegs_span_cons]
      simp

instance (oldC newC inner : Str) : Decidable (innerOk oldC newC inner) := by
  unfold innerOk
  infer_instance

instance (c : Str) : Decidable (CanonOk c) := by
  unfold CanonOk
  infer_instance

/-- C3 counterexample: the spec claims the rewrite round-trips on every text
containing `[[Old]]`.  For the text `[[Old]] [[New]]` the forward rewrite
produces `[[New]] [[New]]`, and rewriting back turns both spans into
`[[Old]]`, so the round trip returns `[[Old]] [[Old]]`, not the original
text. -/
theorem C3_counterexample :
    (rewrite_wikilinks_targets (fun _ => [])
      (rewrite_wikilinks_targets (fun _ => [])
        (str "[[Old]] [[New]]") (str "Old") (str "New")).1
      (str "New") (str "Old")).1 ≠ str "[[Old]] [[New]]" := by
  decide

/-- C3 (amended): rewriting wikilink targets from `old` to `new` and then
from `new` back to `old` reproduces the original text exactly, provided the
two stems canonicalize deterministically to distinct names, the canonical
new name is a nonempty stripped fixed point of canonicalization free of the
wikilink metacharacters `]`, `|`, `#`, `^`, and every span of the text is
in normalized spelling with a deterministically canonicalizing base that
does not already canonicalize to the new name (and spells its target as
the canonical old name plus suffix whenever it canonicalizes to the old
name).  The counterexample text `[[Old]] [[New]]` violates exactly the
"does not canonicalize to the new name" condition. -/
theorem C3_round_trip_amended (us vs : Nat → Str)
    (old_stem new_stem oC nC text : Str)
    (hos : sfCore old_stem = some oC) (hns : sfCore new_stem = some nC)
    (hoC : oC ≠ []) (hCan : CanonOk nC) (hne : oC ≠ nC)
    (hok : ∀ i ∈ wikiInners text, innerOk oC nC i) :
    (rewrite_wikilinks_targets vs
      (rewrite_wikilinks_targets us text old_stem new_stem).1
      new_stem old_stem).1 = text := by
  by_cases htext : text = []
  · subst htext
    rfl
  · have hok' : ∀ i, Seg.span i ∈ wikiSegs text → innerOk oC nC i :=
      fun i hi => hok i (mem_wikiInners.mpr hi)
    have hfwd : (rewrite_wikilinks_targets us text old_stem new_stem).1 =
        fwdSegsStr oC nC (wikiSegs text) := by
      unfold rewrite_wikilinks_targets
      rw [if_neg htext]
      dsimp only
      rw [safe_filename_of_sfCore hos (us 0), safe_filename_of_sfCore hns (us 1)]
      rw [if_neg (by simp [hoC, hCan.1, hne])]
      exact rewriteAux_fwd _ oC nC (wikiSegs text) 0 hok'
    have hFne : fwdSegsStr oC nC (wikiSegs text) ≠ [] := by
      intro hctr
      have hhd := fwdSegsStr_head oC nC (wikiSegs text)
      rw [hctr, renderSegs_scan] at hhd
      cases text with
      | nil => exact htext rfl
      | cons c r => simp at hhd
    have hscan := wikiSegs_fwd oC nC hCan text.length text le_rfl hok'
    have hbwd : (rewrite_wikilinks_targets vs
        (fwdSegsStr oC nC (wikiSegs text)) new_stem old_stem).1 = text := by
      unfold rewrite_wikilinks_targets
      rw [if_neg hFne]
      dsimp only
      rw [safe_filename_of_sfCore hns (vs 0), safe_filename_of_sfCore hos (vs 1)]
      rw [if_neg (by simp [hoC, hCan.1, Ne.symm hne])]
      rw [hscan, rewriteAux_bwd _ oC nC hCan (wikiSegs text) 0 hok']
      exact renderSegs_scan text
    rw [hfwd]
    exact hbwd

/-- Witness for C3: the round trip holds on `[[Old]] see [[Other|x]]` when
renaming `Old` to `New` and back, with every hypothesis checked on the
concrete input. -/
theorem C3_witness :
    (rewrite_wikilinks_targets (fun _ => [])
      (rewrite_wikilinks_targets (fun _ => [])
        (str "[[Old]] see [[Other|x]]") (str "Old") (str "New")).1
      (str "New") (str "Old")).1 = str "[[Old]] see [[Other|x]]" :=
  C3_round_trip_amended (fun _ => []) (fun _ => []) (str "Old") (str "New")
    (str "Old") (str "New") (str "[[Old]] see [[Other|x]]")
    (by decide) (by decide) (by decide) (by decide) (by decide) (by decide)

end ObsidianProject
